import Mathlib

/-!
Verification development for the feTrace in-memory cache with write-back
persistence (`src/cache.py`, find step of `src/routes.py`).

The Python code is shallowly embedded: Python values that can appear in the
cache (the JSON-able values handled by the `json` module) become the
inductive type `PyVal`; the mutable `Cache` object becomes the record
`CacheState` with explicit state passing; the filesystem visible to the
persistence gateway (the destination `people.json` and its temporary file)
becomes the record `FS`; exceptional control flow becomes `Option`.
-/

set_option maxHeartbeats 1000000

namespace FeTrace

/-- Characters removed by the Python `str.strip()` method (ASCII whitespace). -/
def isPySpace (c : Char) : Bool :=
  c = ' ' || c = '\t' || c = '\n' || c = '\r' || c = Char.ofNat 11 || c = Char.ofNat 12

/-- Model of Python `str.strip()`: drop leading and trailing whitespace. -/
def pyStrip (s : String) : String :=
  String.mk (((s.toList.dropWhile isPySpace).reverse.dropWhile isPySpace).reverse)

/-- Model of Python `str.lower()` (ASCII case folding). -/
def pyLower (s : String) : String :=
  String.mk (s.toList.map Char.toLower)

/-- JSON-able Python values, as stored in the cache and handled by the
`json` module.  A numeric value is represented by its canonical repr
token (the digits Python would print for it), which keeps the int/float
distinction of the source without a floating-point model. -/
inductive PyVal : Type where
  | pnull : PyVal
  | pbool : Bool → PyVal
  | pnum : String → PyVal
  | pstr : String → PyVal
  | plist : List PyVal → PyVal
  | pdict : List (String × PyVal) → PyVal

namespace PyVal

mutual

/-- Boolean structural equality of `PyVal` values. -/
def beq : PyVal → PyVal → Bool
  | pnull, pnull => true
  | pbool a, pbool b => a == b
  | pnum a, pnum b => a == b
  | pstr a, pstr b => a == b
  | plist xs, plist ys => beqL xs ys
  | pdict xs, pdict ys => beqD xs ys
  | _, _ => false

/-- Boolean equality of lists of `PyVal` values. -/
def beqL : List PyVal → List PyVal → Bool
  | [], [] => true
  | x :: xs, y :: ys => beq x y && beqL xs ys
  | _, _ => false

/-- Boolean equality of key-value lists of `PyVal` values. -/
def beqD : List (String × PyVal) → List (String × PyVal) → Bool
  | [], [] => true
  | (k, v) :: xs, (l, w) :: ys => k == l && beq v w && beqD xs ys
  | _, _ => false

end

mutual

theorem beq_iff : ∀ a b : PyVal, beq a b = true ↔ a = b
  | pnull, pnull => by simp [beq]
  | pbool a, pbool b => by simp [beq]
  | pnum a, pnum b => by simp [beq]
  | pstr a, pstr b => by simp [beq]
  | plist xs, plist ys => by simp [beq, beqL_iff xs ys]
  | pdict xs, pdict ys => by simp [beq, beqD_iff xs ys]
  | pnull, pbool _ | pnull, pnum _ | pnull, pstr _ | pnull, plist _ | pnull, pdict _
  | pbool _, pnull | pbool _, pnum _ | pbool _, pstr _ | pbool _, plist _ | pbool _, pdict _
  | pnum _, pnull | pnum _, pbool _ | pnum _, pstr _ | pnum _, plist _ | pnum _, pdict _
  | pstr _, pnull | pstr _, pbool _ | pstr _, pnum _ | pstr _, plist _ | pstr _, pdict _
  | plist _, pnull | plist _, pbool _ | plist _, pnum _ | plist _, pstr _ | plist _, pdict _
  | pdict _, pnull | pdict _, pbool _ | pdict _, pnum _ | pdict _, pstr _ | pdict _, plist _ => by
      simp [beq]

theorem beqL_iff : ∀ xs ys : List PyVal, beqL xs ys = true ↔ xs = ys
  | [], [] => by simp [beqL]
  | x :: xs, y :: ys => by simp [beqL, beq_iff x y, beqL_iff xs ys]
  | [], _ :: _ => by simp [beqL]
  | _ :: _, [] => by simp [beqL]

theorem beqD_iff : ∀ xs ys : List (String × PyVal), beqD xs ys = true ↔ xs = ys
  | [], [] => by simp [beqD]
  | (k, v) :: xs, (l, w) :: ys => by
      simp [beqD, beq_iff v w, beqD_iff xs ys, and_assoc]
  | [], _ :: _ => by simp [beqD]
  | _ :: _, [] => by simp [beqD]

end

instance : DecidableEq PyVal := fun a b => decidable_of_iff _ (beq_iff a b)

/-- Leading part of a numeric repr token up to an exponent marker. -/
def mantissaChars (t : String) : List Char :=
  t.toList.takeWhile (fun c => c ≠ 'e' ∧ c ≠ 'E')

/-- Whether a numeric repr token denotes zero (all mantissa digits are 0). -/
def numTokenZero (t : String) : Bool :=
  ((mantissaChars t).filter Char.isDigit).all (· = '0')

/-- Python truthiness of a JSON-able value. -/
def truthy : PyVal → Bool
  | pnull => false
  | pbool b => b
  | pnum t => !numTokenZero t
  | pstr s => s ≠ ""
  | plist xs => !xs.isEmpty
  | pdict kvs => !kvs.isEmpty

end PyVal

/-- Model of Python `dict.get(k)`: the value stored under key `k`.
Python dictionaries hold each key once; parsed JSON keeps the last
duplicate occurrence, so lookup searches from the right. -/
def pyGet (k : String) (kvs : List (String × PyVal)) : Option PyVal :=
  (kvs.reverse.find? (fun kv => kv.1 = k)).map (·.2)

/-- Model of Python `dict.get(k, d)`: lookup with a default. -/
def pyGetD (k : String) (d : PyVal) (kvs : List (String × PyVal)) : PyVal :=
  (pyGet k kvs).getD d

/-- Model of Python `dict[k] = v`: replace the value at an existing key in
place, else append the new key at the end. -/
def pySet (k : String) (v : PyVal) (kvs : List (String × PyVal)) : List (String × PyVal) :=
  if (kvs.find? (fun kv => kv.1 = k)).isSome then
    kvs.map (fun kv => if kv.1 = k then (kv.1, v) else kv)
  else
    kvs ++ [(k, v)]

/-- Lowercase hexadecimal digit for a value below 16. -/
def hexDigit (n : Nat) : Char :=
  if n < 10 then Char.ofNat (48 + n) else Char.ofNat (87 + n)

/-- Python `repr` of one character inside a single-quoted string literal
(approximation sufficient for the values of the data model). -/
def pyReprChar (c : Char) : List Char :=
  if c = '\\' then ['\\', '\\']
  else if c = Char.ofNat 39 then ['\\', Char.ofNat 39]
  else if c = '\n' then ['\\', 'n']
  else if c = '\r' then ['\\', 'r']
  else if c = '\t' then ['\\', 't']
  else if c.toNat < 32 then
    ['\\', 'x', hexDigit (c.toNat / 16), hexDigit (c.toNat % 16)]
  else [c]

mutual

/-- Python `repr()` of a JSON-able value (used by `str()` on containers). -/
def pyRepr : PyVal → List Char
  | .pnull => "None".toList
  | .pbool true => "True".toList
  | .pbool false => "False".toList
  | .pnum t => t.toList
  | .pstr s =>
      Char.ofNat 39 :: s.toList.foldr (fun c acc => pyReprChar c ++ acc) [Char.ofNat 39]
  | .plist xs => '[' :: pyReprItems xs ++ [']']
  | .pdict kvs => '{' :: pyReprEntries kvs ++ ['}']

/-- `repr()` of the comma-separated items of a list. -/
def pyReprItems : List PyVal → List Char
  | [] => []
  | [x] => pyRepr x
  | x :: y :: ys => pyRepr x ++ ',' :: ' ' :: pyReprItems (y :: ys)

/-- `repr()` of the comma-separated entries of a dict. -/
def pyReprEntries : List (String × PyVal) → List Char
  | [] => []
  | [(k, v)] => pyRepr (.pstr k) ++ ':' :: ' ' :: pyRepr v
  | (k, v) :: e :: es =>
      pyRepr (.pstr k) ++ ':' :: ' ' :: pyRepr v ++ ',' :: ' ' :: pyReprEntries (e :: es)

end

/-- Model of Python `str()` on a JSON-able value. -/
def pyStr : PyVal → String
  | .pstr s => s
  | .pnull => "None"
  | .pbool true => "True"
  | .pbool false => "False"
  | .pnum t => t
  | .plist xs => String.mk (pyRepr (.plist xs))
  | .pdict kvs => String.mk (pyRepr (.pdict kvs))

/-! ### Serialization: `json.dump(data, f, ensure_ascii=False, indent=2)` -/

/-- JSON escape of one character as written by `json.dump` with
`ensure_ascii=False`: quote, backslash and control characters are
escaped, everything else is written verbatim. -/
def jsonEscapeChar (c : Char) : List Char :=
  if c = '"' then ['\\', '"']
  else if c = '\\' then ['\\', '\\']
  else if c = '\n' then ['\\', 'n']
  else if c = '\r' then ['\\', 'r']
  else if c = '\t' then ['\\', 't']
  else if c = Char.ofNat 8 then ['\\', 'b']
  else if c = Char.ofNat 12 then ['\\', 'f']
  else if c.toNat < 32 then
    ['\\', 'u', '0', '0', hexDigit (c.toNat / 16), hexDigit (c.toNat % 16)]
  else [c]

/-- JSON serialization of a sequence of characters. -/
def jsonEscapeL (l : List Char) : List Char :=
  l.foldr (fun c acc => jsonEscapeChar c ++ acc) []

/-- JSON serialization of a string body (without the enclosing quotes). -/
def jsonEscape (s : String) : List Char :=
  jsonEscapeL s.toList

/-- Indentation written by `json.dump` with `indent=2` at nesting level `lvl`. -/
def jsonIndent (lvl : Nat) : List Char :=
  List.replicate (2 * lvl) ' '

mutual

/-- Characters written by `json.dump(v, f, ensure_ascii=False, indent=2)` for a
value nested at indentation level `lvl`. -/
def serVal (lvl : Nat) : PyVal → List Char
  | .pnull => "null".toList
  | .pbool true => "true".toList
  | .pbool false => "false".toList
  | .pnum t => t.toList
  | .pstr s => '"' :: jsonEscape s ++ ['"']
  | .plist [] => "[]".toList
  | .plist (x :: xs) =>
      '[' :: '\n' :: jsonIndent (lvl + 1) ++ serItems (lvl + 1) (x :: xs)
        ++ '\n' :: jsonIndent lvl ++ [']']
  | .pdict [] => ['{', '}']
  | .pdict (kv :: kvs) =>
      '{' :: '\n' :: jsonIndent (lvl + 1) ++ serEntries (lvl + 1) (kv :: kvs)
        ++ '\n' :: jsonIndent lvl ++ ['}']

/-- Array items, separated by a comma, newline and indentation. -/
def serItems (lvl : Nat) : List PyVal → List Char
  | [] => []
  | [x] => serVal lvl x
  | x :: y :: ys => serVal lvl x ++ ',' :: '\n' :: jsonIndent lvl ++ serItems lvl (y :: ys)

/-- Object entries `"key": value`, separated by a comma, newline and
indentation. -/
def serEntries (lvl : Nat) : List (String × PyVal) → List Char
  | [] => []
  | [(k, v)] => '"' :: jsonEscape k ++ '"' :: ':' :: ' ' :: serVal lvl v
  | (k, v) :: e :: es =>
      '"' :: jsonEscape k ++ '"' :: ':' :: ' ' :: serVal lvl v
        ++ ',' :: '\n' :: jsonIndent lvl ++ serEntries lvl (e :: es)

end

/-- The full document written for `data`, as a string (the file content). -/
def pyDumps (data : PyVal) : String :=
  String.mk (serVal 0 data)

/-! ### Parsing: `json.load` -/

/-- JSON whitespace characters skipped by the parser. -/
def isJsonWs (c : Char) : Bool :=
  c = ' ' || c = '\t' || c = '\n' || c = '\r'

/-- Skip JSON whitespace. -/
def skipWs : List Char → List Char
  | [] => []
  | c :: cs => if isJsonWs c then skipWs cs else c :: cs

/-- Maximal run of decimal digits at the front of the input. -/
def scanDigits : List Char → List Char × List Char
  | [] => ([], [])
  | c :: cs =>
      if c.isDigit then
        let (d, r) := scanDigits cs
        (c :: d, r)
      else ([], c :: cs)

/-- Unsigned integer part of a JSON number: `0` or a nonzero digit followed
by more digits (leading zeros are rejected, as by the `json` module). -/
def scanIntPart : List Char → Option (List Char × List Char)
  | [] => none
  | c :: cs =>
      if c = '0' then some (['0'], cs)
      else if c.isDigit then
        let (d, r) := scanDigits cs
        some (c :: d, r)
      else none

/-- Optional fraction part `.digits` of a JSON number. -/
def scanFrac : List Char → List Char × List Char
  | [] => ([], [])
  | c :: cs =>
      if c = '.' then
        let (d, r) := scanDigits cs
        if d.isEmpty then ([], c :: cs) else (c :: d, r)
      else ([], c :: cs)

/-- Optional exponent part `[eE][+-]?digits` of a JSON number. -/
def scanExp : List Char → List Char × List Char
  | [] => ([], [])
  | c :: cs =>
      if c = 'e' ∨ c = 'E' then
        match cs with
        | [] => ([], [c])
        | s :: cs2 =>
            if s = '+' ∨ s = '-' then
              let (d, r) := scanDigits cs2
              if d.isEmpty then ([], c :: s :: cs2) else (c :: s :: d, r)
            else
              let (d, r) := scanDigits (s :: cs2)
              if d.isEmpty then ([], c :: s :: cs2) else (c :: d, r)
      else ([], c :: cs)

/-- A JSON number token at the front of the input, by maximal munch,
following the number grammar of the `json` module. -/
def scanNumber (cs : List Char) : Option (List Char × List Char) :=
  match cs with
  | [] => none
  | c :: cs2 =>
      if c = '-' then
        (scanIntPart cs2).map (fun p =>
          let (fp, r2) := scanFrac p.2
          let (ep, r3) := scanExp r2
          ('-' :: p.1 ++ fp ++ ep, r3))
      else
        (scanIntPart (c :: cs2)).map (fun p =>
          let (fp, r2) := scanFrac p.2
          let (ep, r3) := scanExp r2
          (p.1 ++ fp ++ ep, r3))

/-- Four hexadecimal digits of a `\uXXXX` escape. -/
def hexVal (c : Char) : Option Nat :=
  if '0' ≤ c ∧ c ≤ '9' then some (c.toNat - 48)
  else if 'a' ≤ c ∧ c ≤ 'f' then some (c.toNat - 87)
  else if 'A' ≤ c ∧ c ≤ 'F' then some (c.toNat - 55)
  else none

/-- Decoding of a single-character escape in a JSON string. -/
def escDecode (e : Char) : Option Char :=
  if e = '"' then some '"'
  else if e = '\\' then some '\\'
  else if e = '/' then some '/'
  else if e = 'b' then some (Char.ofNat 8)
  else if e = 'f' then some (Char.ofNat 12)
  else if e = 'n' then some '\n'
  else if e = 'r' then some '\r'
  else if e = 't' then some '\t'
  else none

mutual

/-- Body of a JSON string up to the closing quote.  Unescaped control
characters are rejected (`strict=True`, the default of the `json` module). -/
def parseStrBody : List Char → Option (List Char × List Char)
  | [] => none
  | c :: cs =>
      if c = '"' then some ([], cs)
      else if c = '\\' then parseEsc cs
      else if c.toNat < 32 then none
      else (parseStrBody cs).map (fun br => (c :: br.1, br.2))

/-- The characters after a backslash in a JSON string. -/
def parseEsc : List Char → Option (List Char × List Char)
  | 'u' :: a :: b :: c2 :: d :: cs2 => do
      let ha ← hexVal a
      let hb ← hexVal b
      let hc ← hexVal c2
      let hd ← hexVal d
      let n := ((ha * 16 + hb) * 16 + hc) * 16 + hd
      if n.isValidChar then
        (parseStrBody cs2).map (fun br => (Char.ofNat n :: br.1, br.2))
      else none
  | e :: cs2 =>
      (match escDecode e with
       | none => none
       | some c3 => (parseStrBody cs2).map (fun br => (c3 :: br.1, br.2)))
  | [] => none

end

mutual

/-- JSON value at the front of the input (leading whitespace skipped),
returning the value and the unconsumed rest.  `fuel` bounds the recursion
depth; any fuel of at least the length of the input suffices. -/
def parseVal : Nat → List Char → Option (PyVal × List Char)
  | 0, _ => none
  | fuel + 1, cs =>
      match skipWs cs with
      | [] => none
      | c :: r =>
          if c = '"' then
            (parseStrBody r).map (fun (b, rest) => (.pstr (String.mk b), rest))
          else if c = '[' then
            match skipWs r with
            | ']' :: r2 => some (.plist [], r2)
            | r2 => (parseItems fuel r2).map (fun (xs, rest) => (.plist xs, rest))
          else if c = '{' then
            match skipWs r with
            | '}' :: r2 => some (.pdict [], r2)
            | r2 => (parseEntries fuel r2).map (fun (kvs, rest) => (.pdict kvs, rest))
          else if c = 'n' then
            match r with
            | 'u' :: 'l' :: 'l' :: r2 => some (.pnull, r2)
            | _ => none
          else if c = 't' then
            match r with
            | 'r' :: 'u' :: 'e' :: r2 => some (.pbool true, r2)
            | _ => none
          else if c = 'f' then
            match r with
            | 'a' :: 'l' :: 's' :: 'e' :: r2 => some (.pbool false, r2)
            | _ => none
          else
            (scanNumber (c :: r)).map (fun (tok, rest) => (.pnum (String.mk tok), rest))

/-- One or more array items separated by commas, then the closing bracket. -/
def parseItems : Nat → List Char → Option (List PyVal × List Char)
  | 0, _ => none
  | fuel + 1, cs => do
      let (v, r) ← parseVal fuel cs
      match skipWs r with
      | ',' :: r2 => (parseItems fuel r2).map (fun (xs, rest) => (v :: xs, rest))
      | ']' :: r2 => some ([v], r2)
      | _ => none

/-- One or more object entries separated by commas, then the closing brace. -/
def parseEntries : Nat → List Char → Option (List (String × PyVal) × List Char)
  | 0, _ => none
  | fuel + 1, cs => do
      match skipWs cs with
      | '"' :: r => do
          let (kb, r1) ← parseStrBody r
          match skipWs r1 with
          | ':' :: r2 => do
              let (v, r3) ← parseVal fuel r2
              match skipWs r3 with
              | ',' :: r4 =>
                  (parseEntries fuel r4).map (fun (kvs, rest) =>
                    ((String.mk kb, v) :: kvs, rest))
              | '}' :: r4 => some ([(String.mk kb, v)], r4)
              | _ => none
          | _ => none
      | _ => none

end

/-- Model of `json.load` on a whole document: parse one value and require
only whitespace after it. -/
def pyLoads (s : String) : Option PyVal :=
  match parseVal (s.length + 1) s.toList with
  | some (v, rest) => if skipWs rest = [] then some v else none
  | none => none

/-! ### Well-formedness and fuel bounds for the round-trip -/

/-- Whether the number scanner reads back exactly this numeric token:
true for the canonical repr of every JSON-serializable int and float. -/
def validNumToken (t : String) : Bool :=
  match scanNumber t.toList with
  | some (tok, rest) => tok == t.toList && rest.isEmpty
  | none => false

mutual

/-- All numeric tokens in the value are valid JSON number tokens (true of
every value the `json` module can produce or serialize). -/
def wfNums : PyVal → Bool
  | .pnum t => validNumToken t
  | .plist xs => wfNumsL xs
  | .pdict kvs => wfNumsD kvs
  | _ => true

/-- `wfNums` over the items of a list. -/
def wfNumsL : List PyVal → Bool
  | [] => true
  | x :: xs => wfNums x && wfNumsL xs

/-- `wfNums` over the values of an object. -/
def wfNumsD : List (String × PyVal) → Bool
  | [] => true
  | (_, v) :: kvs => wfNums v && wfNumsD kvs

end

mutual

/-- Recursion depth needed by the parser on the serialization of a value. -/
def pfuel : PyVal → Nat
  | .plist (x :: xs) => 1 + pfuelItems (x :: xs)
  | .pdict (kv :: kvs) => 1 + pfuelEntries (kv :: kvs)
  | _ => 1

/-- Recursion depth needed on serialized array items. -/
def pfuelItems : List PyVal → Nat
  | [] => 1
  | [x] => 1 + pfuel x
  | x :: y :: ys => 1 + max (pfuel x) (pfuelItems (y :: ys))

/-- Recursion depth needed on serialized object entries. -/
def pfuelEntries : List (String × PyVal) → Nat
  | [] => 1
  | [(_, v)] => 1 + pfuel v
  | (_, v) :: e :: es => 1 + max (pfuel v) (pfuelEntries (e :: es))

end

/-- The characters that may follow a serialized value inside a document:
nothing, a comma, or the newline before closing indentation. -/
def restOk : List Char → Prop
  | [] => True
  | c :: _ => c = ',' ∨ c = '\n'

/-- A character that cannot extend a JSON number token. -/
def numBoundary (c : Char) : Bool :=
  !(c.isDigit || c = '.' || c = 'e' || c = 'E' || c = '+' || c = '-')

/-- The input cannot extend a number token at its front. -/
def headSafe : List Char → Prop
  | [] => True
  | c :: _ => numBoundary c = true

/-- The input does not start with a digit. -/
def headDigitFree : List Char → Prop
  | [] => True
  | c :: _ => c.isDigit = false

/-- The input does not start with a dot. -/
def headNotDot : List Char → Prop
  | [] => True
  | c :: _ => c ≠ '.'

/-- The input does not start with an exponent marker or a sign. -/
def headNotExpSign : List Char → Prop
  | [] => True
  | c :: _ => ¬(c = 'e' ∨ c = 'E') ∧ ¬(c = '+' ∨ c = '-')

/-! ### Filesystem and persistence gateway -/

/-- The part of the filesystem the persistence gateway touches: the content
of the destination `people.json` and of the temporary file
`people.json.tmp` under the cache root (`none` means the file does not
exist). -/
structure FS where
  dest : Option String
  tmp : Option String
deriving DecidableEq

/-- Failure injected into one run of `_save_people_json_atomic`: the run
can fail before the temporary file is created (`openFail`), in the middle
of writing it (`writeFail`, carrying the incomplete content written so
far), or at the atomic rename (`renameFail`); `noFail` is a successful
run. -/
inductive FailPoint where
  | openFail : FailPoint
  | writeFail : String → FailPoint
  | renameFail : FailPoint
  | noFail : FailPoint
deriving DecidableEq

/-- The `try` block of `_save_people_json_atomic`: write the temporary
file, then rename it over the destination.  Returns the filesystem after
the block and whether an exception was raised.  Opening the temporary file
truncates any previous content; a successful `os.replace` moves the
temporary file onto the destination. -/
def trySave (fp : FailPoint) (content : String) (fs : FS) : FS × Bool :=
  match fp with
  | .openFail => (fs, true)
  | .writeFail w => ({ fs with tmp := some w }, true)
  | .renameFail => ({ fs with tmp := some content }, true)
  | .noFail => ({ dest := some content, tmp := none }, false)

/-- Model of `_save_people_json_atomic(data)`: a no-op without a root,
else serialize `data` and run the write-then-rename block; on any
exception remove the temporary file if it exists and swallow the
exception (the source function always returns normally, which the total
return type models). -/
def save_people_json_atomic (root : Option String) (data : PyVal) (fp : FailPoint)
    (fs : FS) : FS :=
  match root with
  | none => fs
  | some _ =>
      let (fs2, raised) := trySave fp (pyDumps data) fs
      if raised then { fs2 with tmp := none } else fs2

/-- Model of `_read_people_json`: `None` when `people.json` does not exist
or fails to parse as JSON, else the parsed document. -/
def read_people_json (fs : FS) : Option PyVal :=
  match fs.dest with
  | none => none
  | some s => pyLoads s

/-! ### The cache -/

/-- The mutable state of the `Cache` object. -/
structure CacheState where
  people : Option PyVal
  names : List String
  dirty : Bool
  root : Option String
deriving DecidableEq

/-- `Cache.__init__`: no dataset, empty name index, clean, no root. -/
def initCache : CacheState :=
  { people := none, names := [], dirty := false, root := none }

/-- Model of `_is_empty`: whether the document lacks a truthy sized
`persons` entry; any exception inside (attribute access on a non-dict,
length of an unsized value) yields `True`. -/
def is_empty (data : PyVal) : Bool :=
  match data with
  | .pdict kvs =>
      if PyVal.truthy (.pdict kvs) then
        match pyGet "persons" kvs with
        | none => true
        | some v =>
            if PyVal.truthy v then
              match v with
              | .plist _ => false
              | .pstr _ => false
              | .pdict _ => false
              | _ => true
            else true
      else true
  | _ => true

/-- The merge fold of `preload` (cache.py lines 36-45): skip empty names,
keep the first occurrence of each class of names with the same lowercase
form (`seen` holds the lowered forms already kept). -/
def mergeNames (seen : List String) : List String → List String
  | [] => []
  | n :: ns =>
      if n = "" then mergeNames seen ns
      else if seen.contains (pyLower n) then mergeNames seen ns
      else n :: mergeNames (pyLower n :: seen) ns

/-- The comprehension over `persons` in `preload` line 33: the `name`
field of each dict element, kept when truthy; a non-dict element raises,
which the `except` turns into an empty list (`none` here).  A kept name is
represented by its `str()` rendering, which is the identity on the string
names of the data model. -/
def jsonNamesAux : List PyVal → Option (List String)
  | [] => some []
  | .pdict kvs :: tl =>
      (jsonNamesAux tl).map (fun r =>
        let n := pyGetD "name" .pnull kvs
        if PyVal.truthy n then pyStr n :: r else r)
  | _ :: _ => none

/-- Names derived from the adopted dataset (`preload` lines 31-35),
including every raising path of the comprehension, which the `except`
branch turns into the empty list. -/
def json_names (people : PyVal) : List String :=
  if PyVal.truthy people then
    match people with
    | .pdict kvs =>
        match pyGetD "persons" (.plist []) kvs with
        | .plist ps => (jsonNamesAux ps).getD []
        | _ => []
    | _ => []
  else []

/-- The dataset adopted by `preload` (cache.py lines 24-28): the parsed
file when truthy and not empty, else the fallback. -/
def adoptedDoc (fs : FS) (fallback : PyVal) : PyVal :=
  match read_people_json fs with
  | some d => if PyVal.truthy d && !is_empty d then d else fallback
  | none => fallback

/-- Model of `Cache.preload(root, doc_dir, fallback)`: adopt the dataset
chosen by `adoptedDoc`, merge the excel names (the spreadsheet loader is
an external collaborator supplying this list) with the dataset names, and
clear the dirty flag. -/
def preload (fs : FS) (root : String) (excelNames : List String)
    (fallback : PyVal) : CacheState :=
  let people := adoptedDoc fs fallback
  { root := some root
    people := some people
    names := mergeNames [] (excelNames ++ json_names people)
    dirty := false }

/-- Model of `get_people_or_fallback`: `self.people or fallback`. -/
def get_people_or_fallback (fallback : PyVal) (st : CacheState) : PyVal :=
  match st.people with
  | some v => if PyVal.truthy v then v else fallback
  | none => fallback

/-- Model of `get_names`: `self.names or []`. -/
def get_names (st : CacheState) : List String :=
  if st.names.isEmpty then [] else st.names

/-- The record key used by `upsert_person` to match an existing record:
`str(p.get('name', '')).strip().lower()`. -/
def recKey (kvs : List (String × PyVal)) : String :=
  pyLower (pyStrip (pyStr (pyGetD "name" (.pstr "") kvs)))

/-- The find-or-replace scan of `upsert_person`: replace the first record
whose key equals `key` with `person`, else append `person`; `none` models
the exception raised when the scan reaches a non-dict element. -/
def upsertScan (key : String) (person : PyVal) : List PyVal → Option (List PyVal)
  | [] => some [person]
  | .pdict kvs :: tl =>
      if recKey kvs = key then some (person :: tl)
      else (upsertScan key person tl).map (.pdict kvs :: ·)
  | _ :: _ => none

/-- Model of `upsert_person(person, fallback)`.  Every raising path of the
source (a non-dict `person`, attribute access on a truthy non-dict base,
iterating a non-sequence `persons` value, a non-dict element reached by
the scan) happens before any state change, and the only caller swallows
the exception, so those paths leave the state unchanged.  The Python
object-identity test `base is fallback` is modelled by provenance: the
base is the fallback exactly when `self.people` was missing or falsy. -/
def upsert_person (person fallback : PyVal) (st : CacheState) : CacheState :=
  match person with
  | .pdict pkvs =>
      let name := pyStrip (pyStr (pyGetD "name" (.pstr "") pkvs))
      if name = "" then st
      else
        let fromPeople :=
          match st.people with
          | some v => PyVal.truthy v
          | none => false
        let base :=
          match st.people with
          | some v => if PyVal.truthy v then v else fallback
          | none => fallback
        let personsR : Option (List PyVal) :=
          match base with
          | .pdict bkvs =>
              (match pyGet "persons" bkvs with
               | some v =>
                   if PyVal.truthy v then
                     match v with
                     | .plist ps => some ps
                     | _ => none
                   else some []
               | none => some [])
          | _ => if PyVal.truthy base then none else some []
        match personsR with
        | none => st
        | some ps =>
            match upsertScan (pyLower name) person ps with
            | none => st
            | some ps2 =>
                let people2 :=
                  if fromPeople then
                    match base with
                    | .pdict bkvs => PyVal.pdict (pySet "persons" (.plist ps2) bkvs)
                    | _ => base
                  else PyVal.pdict [("persons", .plist ps2)]
                let names2 :=
                  if (st.names.map pyLower).contains (pyLower name) then st.names
                  else st.names ++ [name]
                { st with people := some people2, names := names2, dirty := true }
  | _ => st

/-- One iteration of the `_periodic_flush` loop after the sleep: under the
lock, when the dirty flag is set it is cleared and a snapshot taken, then
outside the lock the snapshot is written.  Returns the filesystem, the
cache state and whether a disk write was performed. -/
def flush_cycle (fp : FailPoint) (fs : FS) (st : CacheState) : FS × CacheState × Bool :=
  if st.dirty then
    let base :=
      match st.people with
      | some v => if PyVal.truthy v then v else .pdict [("persons", .plist [])]
      | none => .pdict [("persons", .plist [])]
    let data :=
      match base with
      | .pdict kvs => PyVal.pdict kvs
      | _ => .pdict [("persons", .plist [])]
    (save_people_json_atomic st.root data fp fs, { st with dirty := false }, true)
  else (fs, st, false)

/-! ### The find step of `handle_person` (routes.py lines 21-27) -/

/-- The loop of `handle_person` lines 24-27 over the persons of the served
dataset: the first record whose trimmed stored name equals the
(already trimmed) query.  The outer `none` models the exception raised on
a non-dict element reached before a match. -/
def findLoop (name : String) : List PyVal → Option (Option PyVal)
  | [] => some none
  | .pdict kvs :: tl =>
      if pyStrip (pyStr (pyGetD "name" (.pstr "") kvs)) = name then some (some (.pdict kvs))
      else findLoop name tl
  | _ :: _ => none

/-- The find step of `handle_person`: the query string is trimmed
(routes.py line 15) and looked up by the loop of lines 24-27. -/
def handle_person_find (query : String) (persons : List PyVal) : Option (Option PyVal) :=
  findLoop (pyStrip query) persons

/-- The find operation as the specification words it (for comparison with
the source): a case-sensitive exact match of the requested name against
the stored `persons[].name`. -/
def specFindExact (query : String) (persons : List PyVal) : Option PyVal :=
  persons.find? (fun p =>
    match p with
    | .pdict kvs => pyGetD "name" (.pstr "") kvs = .pstr query
    | _ => false)

/-! ### Helper lemmas about the cache operations -/

theorem truthy_pdict_of_ne {kvs : List (String × PyVal)} (h : kvs ≠ []) :
    PyVal.truthy (.pdict kvs) = true := by
  cases kvs with
  | nil => exact absurd rfl h
  | cons a l => simp [PyVal.truthy]

theorem upsertScan_isSome (key : String) (person : PyVal) :
    ∀ ps : List PyVal, (∀ p ∈ ps, ∃ kvs, p = .pdict kvs) →
      ∃ ps2, upsertScan key person ps = some ps2
  | [], _ => ⟨[person], rfl⟩
  | p :: tl, h => by
      obtain ⟨kvs, rfl⟩ := h p (by simp)
      by_cases hk : recKey kvs = key
      · exact ⟨person :: tl, by simp [upsertScan, hk]⟩
      · obtain ⟨ps2, hps2⟩ := upsertScan_isSome key person tl (fun q hq => h q (by simp [hq]))
        exact ⟨.pdict kvs :: ps2, by simp [upsertScan, hk, hps2]⟩

theorem upsertScan_mem (key : String) (person : PyVal) :
    ∀ ps ps2 : List PyVal, upsertScan key person ps = some ps2 → person ∈ ps2
  | [], ps2, h => by
      simp [upsertScan] at h
      simp [← h]
  | p :: tl, ps2, h => by
      cases p with
      | pdict kvs =>
          by_cases hk : recKey kvs = key
          · simp [upsertScan, hk] at h
            simp [← h]
          · simp [upsertScan, hk] at h
            obtain ⟨ps3, hps3, rfl⟩ := h
            exact List.mem_cons_of_mem _ (upsertScan_mem key person tl ps3 hps3)
      | pnull => simp [upsertScan] at h
      | pbool b => simp [upsertScan] at h
      | pnum t => simp [upsertScan] at h
      | pstr s => simp [upsertScan] at h
      | plist xs => simp [upsertScan] at h

/-- Evaluation of `upsert_person` on a state of the data model's shape:
the scan result replaces the `persons` entry of the held dataset, the
trimmed name extends the index when its lowered form is new, and the
dirty flag is set. -/
theorem upsert_person_eq (pkvs bkvs : List (String × PyVal)) (ps ps2 : List PyVal)
    (fb : PyVal) (st : CacheState)
    (hst : st.people = some (.pdict bkvs)) (hb : bkvs ≠ [])
    (hpers : pyGet "persons" bkvs = some (.plist ps))
    (hname : pyStrip (pyStr (pyGetD "name" (.pstr "") pkvs)) ≠ "")
    (hscan : upsertScan (pyLower (pyStrip (pyStr (pyGetD "name" (.pstr "") pkvs))))
        (.pdict pkvs) ps = some ps2) :
    upsert_person (.pdict pkvs) fb st =
      { st with
        people := some (.pdict (pySet "persons" (.plist ps2) bkvs))
        names :=
          if (st.names.map pyLower).contains
              (pyLower (pyStrip (pyStr (pyGetD "name" (.pstr "") pkvs)))) then st.names
          else st.names ++ [pyStrip (pyStr (pyGetD "name" (.pstr "") pkvs))]
        dirty := true } := by
  have htr := truthy_pdict_of_ne hb
  cases ps with
  | nil =>
      simp [upsert_person, hst, htr, hpers, hname, hb, PyVal.truthy, hscan]
  | cons q qs =>
      simp [upsert_person, hst, htr, hpers, hname, hb, PyVal.truthy, hscan]

/-! ### C7: `get_people_or_fallback` -/

def c7State : CacheState :=
  { people := some (.pdict [("persons", .plist [])])
    names := [], dirty := false, root := none }

def c7Fallback : PyVal :=
  .pdict [("persons", .plist [.pdict [("name", .pstr "Mao")]])]

/-- C7 counterexample: the claim says a held dataset whose `persons`
sequence is empty is replaced by the fallback; in the code
`self.people or fallback` tests Python truthiness of the dict, so the
held `{"persons": []}` — a non-empty dict — is returned verbatim. -/
theorem c7_counterexample :
    get_people_or_fallback c7Fallback c7State = .pdict [("persons", .plist [])] ∧
    get_people_or_fallback c7Fallback c7State ≠ c7Fallback := by
  constructor
  · rfl
  · decide

/-- C7 amended: `get_people_or_fallback(fallback)` returns the held
dataset verbatim when it is non-null and truthy (a non-empty object), and
returns the fallback when the held dataset is null or falsy; in
particular a held non-empty object whose `persons` sequence is empty is
returned verbatim, not replaced by the fallback. -/
theorem get_people_or_fallback_spec (fb : PyVal) (st : CacheState) :
    (∀ v, st.people = some v → PyVal.truthy v = true → get_people_or_fallback fb st = v) ∧
    (st.people = none → get_people_or_fallback fb st = fb) ∧
    (∀ v, st.people = some v → PyVal.truthy v = false → get_people_or_fallback fb st = fb) ∧
    (∀ kvs, st.people = some (.pdict kvs) → kvs ≠ [] →
        get_people_or_fallback fb st = .pdict kvs) := by
  refine ⟨?_, ?_, ?_, ?_⟩
  · intro v hv ht; simp [get_people_or_fallback, hv, ht]
  · intro hv; simp [get_people_or_fallback, hv]
  · intro v hv ht; simp [get_people_or_fallback, hv, ht]
  · intro kvs hv hne; simp [get_people_or_fallback, hv, truthy_pdict_of_ne hne]

/-- Witness for C7 amended at concrete inputs. -/
theorem get_people_or_fallback_spec_witness :
    get_people_or_fallback c7Fallback c7State = .pdict [("persons", .plist [])] :=
  (get_people_or_fallback_spec c7Fallback c7State).2.2.2
    [("persons", .plist [])] rfl (by decide)

/-! ### C1: dirty flag versus the disk write in the flush cycle -/

def c1State : CacheState :=
  { people := some (.pdict [("persons", .plist [.pdict [("name", .pstr "Mao")]])])
    names := ["Mao"], dirty := true, root := some "srv" }

def c1FS : FS := { dest := some "old", tmp := none }

/-- C1 counterexample: a flush cycle whose disk write fails (here at the
atomic rename, destination left unchanged) nevertheless ends with
`dirty = false`; the claim says a failed write leaves `dirty = true` so
the data is retried. -/
theorem c1_counterexample :
    (flush_cycle .renameFail c1FS c1State).2.1.dirty = false ∧
    (flush_cycle .renameFail c1FS c1State).1.dest = some "old" ∧
    (flush_cycle .renameFail c1FS c1State).2.2 = true := by
  refine ⟨rfl, ?_, rfl⟩
  rfl

/-- C1 amended: a flush cycle that observes `dirty = true` clears the flag
under the lock, before the disk write and regardless of the write's
outcome; a cycle whose write fails therefore ends with `dirty = false`
(and the destination file unchanged), so that snapshot is not retried
until a later upsert sets the flag again. -/
theorem flush_cycle_clears_dirty (fp : FailPoint) (fs : FS) (st : CacheState)
    (h : st.dirty = true) :
    (flush_cycle fp fs st).2.1.dirty = false ∧
    (flush_cycle fp fs st).2.2 = true ∧
    (fp ≠ .noFail → (flush_cycle fp fs st).1.dest = fs.dest) := by
  refine ⟨by simp [flush_cycle, h], by simp [flush_cycle, h], ?_⟩
  intro hfp
  cases hr : st.root with
  | none => simp [flush_cycle, h, save_people_json_atomic, hr]
  | some r =>
      cases fp with
      | openFail => simp [flush_cycle, h, save_people_json_atomic, trySave, hr]
      | writeFail w => simp [flush_cycle, h, save_people_json_atomic, trySave, hr]
      | renameFail => simp [flush_cycle, h, save_people_json_atomic, trySave, hr]
      | noFail => exact absurd rfl hfp

/-- Witness for C1 amended at concrete inputs. -/
theorem flush_cycle_clears_dirty_witness :
    (flush_cycle .openFail c1FS c1State).2.1.dirty = false ∧
    (flush_cycle .openFail c1FS c1State).1.dest = some "old" := by
  obtain ⟨h1, _, h3⟩ := flush_cycle_clears_dirty .openFail c1FS c1State rfl
  refine ⟨h1, ?_⟩
  rw [h3 (by decide)]
  rfl

/-! ### C4: failure atomicity of `_save_people_json_atomic` -/

/-- C4: if the save fails at any point before the atomic rename completes
(opening the temporary file, writing it — possibly partially — or the
rename itself), the destination content is unchanged and the temporary
file does not remain; the model's total return type reflects that the
source function swallows the exception and returns normally. -/
theorem save_atomic_failure (r : String) (data : PyVal) (fp : FailPoint) (fs : FS)
    (h : fp ≠ .noFail) :
    (save_people_json_atomic (some r) data fp fs).dest = fs.dest ∧
    (save_people_json_atomic (some r) data fp fs).tmp = none := by
  cases fp with
  | openFail => simp [save_people_json_atomic, trySave]
  | writeFail w => simp [save_people_json_atomic, trySave]
  | renameFail => simp [save_people_json_atomic, trySave]
  | noFail => exact absurd rfl h

/-- Witness for C4 at concrete inputs: a mid-write failure that leaves a
partial temporary file behind is cleaned up and the destination keeps its
old content. -/
theorem save_atomic_failure_witness :
    (save_people_json_atomic (some "srv") (.pdict [("persons", .plist [])])
        (.writeFail "half") ⟨some "old", none⟩).dest = some "old" ∧
    (save_people_json_atomic (some "srv") (.pdict [("persons", .plist [])])
        (.writeFail "half") ⟨some "old", none⟩).tmp = none :=
  save_atomic_failure "srv" (.pdict [("persons", .plist [])]) (.writeFail "half")
    ⟨some "old", none⟩ (by decide)

/-! ### C5: dirty-flag lifecycle -/

def c5Fallback : PyVal := .pdict [("persons", .plist [.pdict [("name", .pstr "Mao")]])]

def c5State : CacheState :=
  { people := some (.pdict [("persons", .plist [])])
    names := [], dirty := false, root := some "srv" }

/-- C5: immediately after `preload` the dirty flag is false; one
`upsert_person` whose record name is non-empty after trimming (on a state
of the data model's shape) sets it; a successful flush cycle with no
intervening upsert clears it; and a flush cycle that finds the flag false
performs no disk write and leaves the filesystem unchanged. -/
theorem dirty_flag_lifecycle :
    (∀ fs root ex fb, (preload fs root ex fb).dirty = false) ∧
    (∀ pkvs bkvs ps fb st, st.people = some (.pdict bkvs) → bkvs ≠ [] →
        pyGet "persons" bkvs = some (.plist ps) →
        (∀ p ∈ ps, ∃ kvs, p = .pdict kvs) →
        pyStrip (pyStr (pyGetD "name" (.pstr "") pkvs)) ≠ "" →
        (upsert_person (.pdict pkvs) fb st).dirty = true) ∧
    (∀ fs st, st.dirty = true → (flush_cycle .noFail fs st).2.1.dirty = false) ∧
    (∀ fp fs st, st.dirty = false →
        (flush_cycle fp fs st).2.2 = false ∧ (flush_cycle fp fs st).1 = fs) := by
  refine ⟨?_, ?_, ?_, ?_⟩
  · intro fs root ex fb; rfl
  · intro pkvs bkvs ps fb st hst hb hpers hwf hname
    obtain ⟨ps2, hscan⟩ :=
      upsertScan_isSome (pyLower (pyStrip (pyStr (pyGetD "name" (.pstr "") pkvs))))
        (.pdict pkvs) ps hwf
    rw [upsert_person_eq pkvs bkvs ps ps2 fb st hst hb hpers hname hscan]
  · intro fs st h; simp [flush_cycle, h]
  · intro fp fs st h; simp [flush_cycle, h]

/-- Witness for C5 at concrete inputs. -/
theorem dirty_flag_lifecycle_witness :
    (preload ⟨none, none⟩ "srv" [] c5Fallback).dirty = false ∧
    (upsert_person (.pdict [("name", .pstr "Zhu")]) c5Fallback c5State).dirty = true ∧
    (flush_cycle .noFail c1FS c5State).2.2 = false := by
  refine ⟨dirty_flag_lifecycle.1 ⟨none, none⟩ "srv" [] c5Fallback, ?_, ?_⟩
  · exact dirty_flag_lifecycle.2.1 [("name", .pstr "Zhu")] [("persons", .plist [])] []
      c5Fallback c5State rfl (by decide) (by decide) (by simp) (by decide)
  · exact (dirty_flag_lifecycle.2.2.2 .noFail c1FS c5State rfl).1

/-! ### C10: upsert stores the record verbatim, indexes the trimmed name -/

/-- C10: `upsert_person` with a record whose name is non-empty after
trimming stores the caller's record verbatim (the very value passed, with
its original casing and whitespace) in the dataset's persons sequence,
and the name appended to the index — when its lowered form is not already
present — is the trimmed but not case-normalised name. -/
theorem upsert_person_verbatim (pkvs bkvs : List (String × PyVal)) (ps : List PyVal)
    (fb : PyVal) (st : CacheState)
    (hst : st.people = some (.pdict bkvs)) (hb : bkvs ≠ [])
    (hpers : pyGet "persons" bkvs = some (.plist ps))
    (hwf : ∀ p ∈ ps, ∃ kvs, p = .pdict kvs)
    (hname : pyStrip (pyStr (pyGetD "name" (.pstr "") pkvs)) ≠ "") :
    ∃ ps2,
      (upsert_person (.pdict pkvs) fb st).people
          = some (.pdict (pySet "persons" (.plist ps2) bkvs)) ∧
      PyVal.pdict pkvs ∈ ps2 ∧
      (upsert_person (.pdict pkvs) fb st).names =
        (if (st.names.map pyLower).contains
            (pyLower (pyStrip (pyStr (pyGetD "name" (.pstr "") pkvs)))) then st.names
         else st.names ++ [pyStrip (pyStr (pyGetD "name" (.pstr "") pkvs))]) := by
  obtain ⟨ps2, hscan⟩ :=
    upsertScan_isSome (pyLower (pyStrip (pyStr (pyGetD "name" (.pstr "") pkvs))))
      (.pdict pkvs) ps hwf
  refine ⟨ps2, ?_, upsertScan_mem _ _ ps ps2 hscan, ?_⟩ <;>
    rw [upsert_person_eq pkvs bkvs ps ps2 fb st hst hb hpers hname hscan]

/-- Witness for C10 at concrete inputs: upserting a record named
`"  zHu "` keeps the stored name exactly `"  zHu "` and indexes `"zHu"`. -/
theorem upsert_person_verbatim_witness :
    ∃ ps2,
      (upsert_person (.pdict [("name", .pstr "  zHu ")]) c5Fallback c5State).people
          = some (.pdict (pySet "persons" (.plist ps2) [("persons", .plist [])])) ∧
      PyVal.pdict [("name", .pstr "  zHu ")] ∈ ps2 ∧
      (upsert_person (.pdict [("name", .pstr "  zHu ")]) c5Fallback c5State).names =
        ([] : List String) ++ ["zHu"] := by
  obtain ⟨ps2, h1, h2, h3⟩ :=
    upsert_person_verbatim [("name", .pstr "  zHu ")] [("persons", .plist [])] []
      c5Fallback c5State rfl (by decide) (by decide) (by simp) (by decide)
  exact ⟨ps2, h1, h2, by rw [h3]; rfl⟩

/-! ### C6: lookup asymmetry between the find step and upsert -/

theorem findLoop_found (q : String) :
    ∀ ps r, findLoop q ps = some (some r) →
      ∃ kvs, r = .pdict kvs ∧ pyStrip (pyStr (pyGetD "name" (.pstr "") kvs)) = q
  | [], r, h => by simp [findLoop] at h
  | .pdict kvs :: tl, r, h => by
      by_cases hn : pyStrip (pyStr (pyGetD "name" (.pstr "") kvs)) = q
      · simp [findLoop, hn] at h
        exact ⟨kvs, by simp [← h], hn⟩
      · simp [findLoop, hn] at h
        exact findLoop_found q tl r h
  | .pnull :: tl, r, h => by simp [findLoop] at h
  | .pbool b :: tl, r, h => by simp [findLoop] at h
  | .pnum t :: tl, r, h => by simp [findLoop] at h
  | .pstr s :: tl, r, h => by simp [findLoop] at h
  | .plist xs :: tl, r, h => by simp [findLoop] at h

theorem findLoop_none (q : String) :
    ∀ ps, (∀ p ∈ ps, ∃ kvs, p = .pdict kvs ∧
        pyStrip (pyStr (pyGetD "name" (.pstr "") kvs)) ≠ q) →
      findLoop q ps = some none
  | [], _ => rfl
  | p :: tl, h => by
      obtain ⟨kvs, rfl, hne⟩ := h p (by simp)
      simp [findLoop, hne]
      exact findLoop_none q tl (fun p hp => h p (by simp [hp]))

def c6Persons : List PyVal := [.pdict [("name", .pstr " foo ")]]

/-- C6 counterexample: the find step of `handle_person` is not an exact
comparison of the requested name against the stored `persons[].name`: the
request `"foo"` matches the stored record named `" foo "` (both sides are
trimmed before comparison), while the exact comparison the claim words
(`specFindExact`) finds nothing. -/
theorem c6_counterexample :
    handle_person_find "foo" c6Persons = some (some (.pdict [("name", .pstr " foo ")])) ∧
    specFindExact "foo" c6Persons = none := by
  constructor
  · rfl
  · rfl

/-- C6 amended: the find step of `handle_person` matches by case-sensitive
comparison of the trimmed stored name against the trimmed requested name
(so a read for "foo" does not match a stored "Foo", but does match a
stored " foo "), while `upsert_person` matches existing records by
case-insensitive trimmed comparison, so an upsert of "foo" replaces a
stored "Foo". -/
theorem find_case_sensitive_upsert_insensitive :
    (∀ query ps r, handle_person_find query ps = some (some r) →
        ∃ kvs, r = .pdict kvs ∧
          pyStrip (pyStr (pyGetD "name" (.pstr "") kvs)) = pyStrip query) ∧
    (∀ query ps, (∀ p ∈ ps, ∃ kvs, p = .pdict kvs ∧
          pyStrip (pyStr (pyGetD "name" (.pstr "") kvs)) ≠ pyStrip query) →
        handle_person_find query ps = some none) ∧
    (∀ pkvs kvs tl,
        recKey kvs = pyLower (pyStrip (pyStr (pyGetD "name" (.pstr "") pkvs))) →
        upsertScan (pyLower (pyStrip (pyStr (pyGetD "name" (.pstr "") pkvs))))
            (.pdict pkvs) (.pdict kvs :: tl) = some (.pdict pkvs :: tl)) := by
  refine ⟨?_, ?_, ?_⟩
  · intro query ps r h
    exact findLoop_found (pyStrip query) ps r h
  · intro query ps h
    exact findLoop_none (pyStrip query) ps h
  · intro pkvs kvs tl h
    simp [upsertScan, h]

/-- Witness for C6 amended at concrete inputs: the query "foo" does not
match a stored "Foo" but an upsert of "foo" replaces a stored "Foo". -/
theorem find_case_sensitive_upsert_insensitive_witness :
    handle_person_find "foo" [.pdict [("name", .pstr "Foo")]] = some none ∧
    upsertScan (pyLower (pyStrip (pyStr (pyGetD "name" (.pstr "")
        [("name", .pstr "foo")])))) (.pdict [("name", .pstr "foo")])
        [.pdict [("name", .pstr "Foo")]] = some [.pdict [("name", .pstr "foo")]] := by
  constructor
  · exact find_case_sensitive_upsert_insensitive.2.1 "foo"
      [.pdict [("name", .pstr "Foo")]]
      (by intro p hp
          simp at hp
          exact ⟨[("name", .pstr "Foo")], hp, by decide⟩)
  · exact find_case_sensitive_upsert_insensitive.2.2 [("name", .pstr "foo")]
      [("name", .pstr "Foo")] [] (by decide)

/-! ### C3: preload fallback correctness -/

/-- The `persons` entry of a parsed document, when the document is an
object. -/
def docPersons (d : PyVal) : Option PyVal :=
  match d with
  | .pdict kvs => pyGet "persons" kvs
  | _ => none

/-- C3: `preload` adopts the fallback when `people.json` is missing, when
it fails to parse, and when it parses to a document whose `persons`
sequence is absent or empty; it adopts the file's document when that
document carries at least one person. -/
theorem preload_fallback (fs : FS) (root : String) (ex : List String) (fb : PyVal) :
    (fs.dest = none → (preload fs root ex fb).people = some fb) ∧
    (∀ s, fs.dest = some s → pyLoads s = none →
        (preload fs root ex fb).people = some fb) ∧
    (∀ s d, fs.dest = some s → pyLoads s = some d →
        (docPersons d = none ∨ docPersons d = some (.plist [])) →
        (preload fs root ex fb).people = some fb) ∧
    (∀ s d ps, fs.dest = some s → pyLoads s = some d →
        docPersons d = some (.plist ps) → ps ≠ [] →
        (preload fs root ex fb).people = some d) := by
  refine ⟨?_, ?_, ?_, ?_⟩
  · intro h; simp [preload, adoptedDoc, read_people_json, h]
  · intro s hs hp; simp [preload, adoptedDoc, read_people_json, hs, hp]
  · intro s d hs hp hd
    have hcond : (PyVal.truthy d && !is_empty d) = false := by
      cases d with
      | pdict kvs =>
          have : is_empty (.pdict kvs) = true := by
            cases hd with
            | inl h0 =>
                simp only [docPersons] at h0
                simp [is_empty, h0]
            | inr h0 =>
                simp only [docPersons] at h0
                simp [is_empty, h0, PyVal.truthy]
          simp [this]
      | pnull => simp [is_empty]
      | pbool b => simp [is_empty]
      | pnum t => simp [is_empty]
      | pstr s2 => simp [is_empty]
      | plist xs => simp [is_empty]
    simp [preload, adoptedDoc, read_people_json, hs, hp, hcond]
  · intro s d ps hs hp hd hne
    cases d with
    | pdict kvs =>
        simp only [docPersons] at hd
        have hk : kvs ≠ [] := by
          intro h0
          rw [h0] at hd
          simp [pyGet] at hd
        have hcond : (PyVal.truthy (.pdict kvs) && !is_empty (.pdict kvs)) = true := by
          have h1 := truthy_pdict_of_ne hk
          have h2 : is_empty (.pdict kvs) = false := by
            cases ps with
            | nil => exact absurd rfl hne
            | cons q qs => simp [is_empty, h1, hd, hk, PyVal.truthy]
          simp [h1, h2]
        simp [preload, adoptedDoc, read_people_json, hs, hp, hcond]
    | pnull => simp [docPersons] at hd
    | pbool b => simp [docPersons] at hd
    | pnum t => simp [docPersons] at hd
    | pstr s2 => simp [docPersons] at hd
    | plist xs => simp [docPersons] at hd

/-- Witness for C3 at concrete inputs: a missing file, an unparseable
file, a file holding a document with an empty persons sequence, and a
file holding one person. -/
theorem preload_fallback_witness :
    (preload ⟨none, none⟩ "srv" [] c5Fallback).people = some c5Fallback ∧
    (preload ⟨some "not json", none⟩ "srv" [] c5Fallback).people = some c5Fallback ∧
    (preload ⟨some "\x7b\"persons\": []\x7d", none⟩ "srv" [] c5Fallback).people
        = some c5Fallback ∧
    (preload ⟨some "\x7b\"persons\": [\"zhu\"]\x7d", none⟩ "srv" [] c5Fallback).people
        = some (.pdict [("persons", .plist [.pstr "zhu"])]) := by
  refine ⟨?_, ?_, ?_, ?_⟩
  · exact (preload_fallback ⟨none, none⟩ "srv" [] c5Fallback).1 rfl
  · exact (preload_fallback ⟨some "not json", none⟩ "srv" [] c5Fallback).2.1
      "not json" rfl (by decide)
  · exact (preload_fallback ⟨some "\x7b\"persons\": []\x7d", none⟩ "srv" [] c5Fallback).2.2.1
      "\x7b\"persons\": []\x7d" (.pdict [("persons", .plist [])]) rfl (by decide)
      (Or.inr (by decide))
  · exact (preload_fallback ⟨some "\x7b\"persons\": [\"zhu\"]\x7d", none⟩ "srv" []
        c5Fallback).2.2.2 "\x7b\"persons\": [\"zhu\"]\x7d"
      (.pdict [("persons", .plist [.pstr "zhu"])]) [.pstr "zhu"] rfl (by decide)
      (by decide) (by decide)

/-! ### C8: the name index is deduplicated case-insensitively -/

/-- No two entries of the list are equal under case-insensitive
comparison. -/
def lowerDistinct (names : List String) : Prop :=
  names.Pairwise (fun a b => pyLower a ≠ pyLower b)

theorem mergeNames_spec (l : List String) : ∀ seen,
    (mergeNames seen l).Sublist l ∧
    (∀ m ∈ mergeNames seen l, pyLower m ∉ seen) ∧
    lowerDistinct (mergeNames seen l) := by
  induction l with
  | nil =>
      intro seen
      exact ⟨by simp [mergeNames], by simp [mergeNames], by simp [lowerDistinct, mergeNames]⟩
  | cons n ns ih =>
      intro seen
      by_cases h0 : n = ""
      · obtain ⟨s1, s2, s3⟩ := ih seen
        exact ⟨by simpa [mergeNames, h0] using s1.cons n, by simpa [mergeNames, h0] using s2,
          by simpa [mergeNames, h0] using s3⟩
      · by_cases h1 : pyLower n ∈ seen
        · obtain ⟨s1, s2, s3⟩ := ih seen
          exact ⟨by simpa [mergeNames, h0, h1] using s1.cons n,
            by simpa [mergeNames, h0, h1] using s2, by simpa [mergeNames, h0, h1] using s3⟩
        · obtain ⟨s1, s2, s3⟩ := ih (pyLower n :: seen)
          refine ⟨?_, ?_, ?_⟩
          · simpa [mergeNames, h0, h1] using s1.cons₂ n
          · intro m hm
            simp only [mergeNames, if_neg h0] at hm
            rw [if_neg (by simpa using h1)] at hm
            rcases List.mem_cons.mp hm with rfl | hm2
            · exact h1
            · exact fun hs => s2 m hm2 (List.mem_cons_of_mem _ hs)
          · simp only [mergeNames, if_neg h0]
            rw [if_neg (by simpa using h1)]
            refine List.Pairwise.cons ?_ s3
            intro m hm heq
            exact s2 m hm (heq ▸ List.mem_cons_self _ _)

theorem mergeNames_first (l : List String) : ∀ seen m, m ∈ mergeNames seen l →
    l.find? (fun x => decide (x ≠ "") && (pyLower x == pyLower m)) = some m := by
  induction l with
  | nil => intro seen m hm; simp [mergeNames] at hm
  | cons n ns ih =>
      intro seen m hm
      by_cases h0 : n = ""
      · rw [List.find?_cons_of_neg _ (by simp [h0])]
        exact ih seen m (by simpa [mergeNames, h0] using hm)
      · by_cases h1 : pyLower n ∈ seen
        · have hm2 : m ∈ mergeNames seen ns := by simpa [mergeNames, h0, h1] using hm
          have hlm : pyLower m ∉ seen := (mergeNames_spec ns seen).2.1 m hm2
          have hne : pyLower n ≠ pyLower m := fun he => hlm (he ▸ h1)
          rw [List.find?_cons_of_neg _ (by simp [h0, hne])]
          exact ih seen m hm2
        · have hm2 := hm
          simp only [mergeNames, if_neg h0] at hm2
          rw [if_neg (by simpa using h1)] at hm2
          rcases List.mem_cons.mp hm2 with rfl | hm3
          · rw [List.find?_cons_of_pos _ (by simp [h0])]
          · have hlm : pyLower m ∉ (pyLower n :: seen) :=
              (mergeNames_spec ns (pyLower n :: seen)).2.1 m hm3
            have hne : pyLower n ≠ pyLower m := fun he => hlm (by simp [he])
            rw [List.find?_cons_of_neg _ (by simp [h0, hne])]
            exact ih (pyLower n :: seen) m hm3

theorem upsert_person_names (person fb : PyVal) (st : CacheState) :
    (upsert_person person fb st).names = st.names ∨
    ∃ n, pyLower n ∉ st.names.map pyLower ∧
        (upsert_person person fb st).names = st.names ++ [n] := by
  cases person with
  | pdict pkvs =>
      by_cases hname : pyStrip (pyStr (pyGetD "name" (.pstr "") pkvs)) = ""
      · left; simp [upsert_person, hname]
      · by_cases hc : (st.names.map pyLower).contains
            (pyLower (pyStrip (pyStr (pyGetD "name" (.pstr "") pkvs))))
        · left
          simp only [upsert_person, if_neg hname, hc, if_true]
          split
          · rfl
          · split
            · rfl
            · rfl
        · simp only [upsert_person, if_neg hname, hc, if_false, Bool.false_eq_true]
          split
          · exact Or.inl rfl
          · split
            · exact Or.inl rfl
            · right
              exact ⟨pyStrip (pyStr (pyGetD "name" (.pstr "") pkvs)),
                fun hmem => hc (List.elem_iff.mpr hmem), rfl⟩
  | pnull => exact Or.inl rfl
  | pbool b => exact Or.inl rfl
  | pnum t => exact Or.inl rfl
  | pstr s => exact Or.inl rfl
  | plist xs => exact Or.inl rfl

theorem upsert_person_lowerDistinct (person fb : PyVal) (st : CacheState)
    (h : lowerDistinct st.names) : lowerDistinct (upsert_person person fb st).names := by
  rcases upsert_person_names person fb st with he | ⟨n, hn, he⟩
  · rw [he]; exact h
  · rw [he, lowerDistinct, List.pairwise_append]
    refine ⟨h, List.pairwise_singleton _ _, ?_⟩
    intro a ha b hb
    simp only [List.mem_singleton] at hb
    subst hb
    exact fun heq => hn (heq ▸ List.mem_map_of_mem pyLower ha)

theorem foldl_upsert_lowerDistinct (us : List (PyVal × PyVal)) : ∀ st : CacheState,
    lowerDistinct st.names →
    lowerDistinct ((us.foldl (fun st q => upsert_person q.1 q.2 st) st).names) := by
  induction us with
  | nil => intro st h; exact h
  | cons q us ih =>
      intro st h
      exact ih _ (upsert_person_lowerDistinct q.1 q.2 st h)

/-- C8: at every point after `preload` (through any sequence of upserts)
the name index holds no two entries equal under case-insensitive
comparison; `preload` builds it from the excel names followed by the
dataset-derived names keeping only the first occurrence of each
case-insensitive class (a sublist of that concatenation); and
`upsert_person` either leaves the index unchanged or appends a single
name whose lowered form was not yet present. -/
theorem name_index_dedup :
    (∀ fs root ex fb (us : List (PyVal × PyVal)),
        lowerDistinct ((us.foldl (fun st q => upsert_person q.1 q.2 st)
            (preload fs root ex fb)).names)) ∧
    (∀ fs root ex fb, (preload fs root ex fb).names.Sublist
        (ex ++ json_names (adoptedDoc fs fb))) ∧
    (∀ fs root ex fb m, m ∈ (preload fs root ex fb).names →
        (ex ++ json_names (adoptedDoc fs fb)).find?
            (fun x => decide (x ≠ "") && (pyLower x == pyLower m)) = some m) ∧
    (∀ person fb st, (upsert_person person fb st).names = st.names ∨
        ∃ n, pyLower n ∉ st.names.map pyLower ∧
            (upsert_person person fb st).names = st.names ++ [n]) := by
  refine ⟨?_, ?_, ?_, ?_⟩
  · intro fs root ex fb us
    exact foldl_upsert_lowerDistinct us _
      ((mergeNames_spec (ex ++ json_names (adoptedDoc fs fb)) []).2.2)
  · intro fs root ex fb
    exact (mergeNames_spec (ex ++ json_names (adoptedDoc fs fb)) []).1
  · intro fs root ex fb m hm
    exact mergeNames_first (ex ++ json_names (adoptedDoc fs fb)) [] m hm
  · exact upsert_person_names

/-- Witness for C8 at concrete inputs: excel names ["Zhu", "zhu"] merged
with the fallback dataset name "Mao" keep only the first "Zhu". -/
theorem name_index_dedup_witness :
    lowerDistinct (preload ⟨none, none⟩ "srv" ["Zhu", "zhu"] c5Fallback).names ∧
    (["Zhu", "zhu"] ++ json_names (adoptedDoc ⟨none, none⟩ c5Fallback)).find?
        (fun x => decide (x ≠ "") && (pyLower x == pyLower "Zhu")) = some "Zhu" := by
  constructor
  · exact name_index_dedup.1 ⟨none, none⟩ "srv" ["Zhu", "zhu"] c5Fallback []
  · exact name_index_dedup.2.2.1 ⟨none, none⟩ "srv" ["Zhu", "zhu"] c5Fallback "Zhu"
      (by decide)

/-! ### C2: uniqueness and last-writer-wins under upserts -/

/-- The matching class of a record: its trimmed and lowered name (records
are dicts; the scan raises before computing a class for anything else). -/
def pKeyOf (p : PyVal) : String :=
  match p with
  | .pdict kvs => recKey kvs
  | _ => ""

/-- No two records of the sequence share a matching class. -/
def distinctKeys (ps : List PyVal) : Prop :=
  ps.Pairwise (fun a b => pKeyOf a ≠ pKeyOf b)

/-- Whether an upsert call mutates the cache: a dict record whose name is
non-empty after trimming. -/
def qualifies (q : PyVal) : Bool :=
  match q with
  | .pdict pkvs => decide (pyStrip (pyStr (pyGetD "name" (.pstr "") pkvs)) ≠ "")
  | _ => false

/-- The most recent mutating upsert of class `k` in the call sequence
(calls are person-fallback pairs, in order). -/
def lastUpsertFor (k : String) (us : List (PyVal × PyVal)) : Option PyVal :=
  ((us.map Prod.fst).filter (fun q => qualifies q && (pKeyOf q == k))).getLast?

theorem pyGet_pySet_self (k : String) (v : PyVal) (kvs : List (String × PyVal)) :
    pyGet k (pySet k v kvs) = some v := by
  unfold pySet
  split
  · next hfind =>
      rw [List.find?_isSome] at hfind
      obtain ⟨kv, hkv, hk⟩ := hfind
      have : ∀ l : List (String × PyVal), (∃ kv ∈ l, kv.1 = k) →
          pyGet k (l.map (fun kv => if kv.1 = k then (kv.1, v) else kv)) = some v := by
        intro l
        induction l with
        | nil => intro h; simp at h
        | cons a l ih =>
            intro h
            by_cases ha : a.1 = k
            · simp only [pyGet, List.map_cons, if_pos ha, List.reverse_cons,
                List.find?_append]
              by_cases htl : ∃ kv ∈ l, kv.1 = k
              · have := ih htl
                simp only [pyGet] at this
                rcases hfound : (l.map fun kv => if kv.1 = k then (kv.1, v) else kv).reverse.find?
                    (fun kv => kv.1 = k) with _ | w
                · rw [hfound] at this; simp at this
                · rw [hfound] at this
                  simp [hfound, this]
              · have hnone : (l.map fun kv => if kv.1 = k then (kv.1, v) else kv).reverse.find?
                    (fun kv => kv.1 = k) = none := by
                  rw [List.find?_eq_none]
                  intro x hx
                  simp only [List.mem_reverse, List.mem_map] at hx
                  obtain ⟨y, hy, rfl⟩ := hx
                  by_cases hyk : y.1 = k
                  · exact absurd ⟨y, hy, hyk⟩ htl
                  · simp [hyk]
                simp [hnone, ha]
            · simp only [pyGet, List.map_cons, if_neg ha, List.reverse_cons,
                List.find?_append]
              have htl : ∃ kv ∈ l, kv.1 = k := by
                rcases h with ⟨kv2, hkv2, hk2⟩
                rcases List.mem_cons.mp hkv2 with rfl | hm
                · exact absurd hk2 ha
                · exact ⟨kv2, hm, hk2⟩
              have := ih htl
              simp only [pyGet] at this
              rcases hfound : (l.map fun kv => if kv.1 = k then (kv.1, v) else kv).reverse.find?
                  (fun kv => kv.1 = k) with _ | w
              · rw [hfound] at this; simp at this
              · rw [hfound] at this
                simp [hfound, this]
      exact this kvs ⟨kv, hkv, of_decide_eq_true hk⟩
  · simp [pyGet]

theorem pySet_ne_nil (k : String) (v : PyVal) (kvs : List (String × PyVal)) :
    pySet k v kvs ≠ [] := by
  unfold pySet
  split
  · next hfind =>
      intro h
      rw [List.map_eq_nil_iff] at h
      subst h
      simp at hfind
  · simp

theorem upsertScan_subset (key : String) (person : PyVal) :
    ∀ ps ps2, upsertScan key person ps = some ps2 → ∀ p ∈ ps2, p ∈ ps ∨ p = person
  | [], ps2, h => by
      simp [upsertScan] at h
      subst h
      intro p hp
      simp at hp
      exact Or.inr hp
  | q :: tl, ps2, h => by
      cases q with
      | pdict kvs =>
          by_cases hk : recKey kvs = key
          · simp [upsertScan, hk] at h
            subst h
            intro p hp
            rcases List.mem_cons.mp hp with rfl | hp2
            · exact Or.inr rfl
            · exact Or.inl (List.mem_cons_of_mem _ hp2)
          · simp [upsertScan, hk] at h
            obtain ⟨ps3, hps3, rfl⟩ := h
            intro p hp
            rcases List.mem_cons.mp hp with rfl | hp2
            · exact Or.inl (List.mem_cons_self _ _)
            · rcases upsertScan_subset key person tl ps3 hps3 p hp2 with h2 | h2
              · exact Or.inl (List.mem_cons_of_mem _ h2)
              · exact Or.inr h2
      | pnull => simp [upsertScan] at h
      | pbool b => simp [upsertScan] at h
      | pnum t => simp [upsertScan] at h
      | pstr s => simp [upsertScan] at h
      | plist xs => simp [upsertScan] at h

theorem upsertScan_wf (key : String) (pkvs : List (String × PyVal)) :
    ∀ ps ps2, upsertScan key (.pdict pkvs) ps = some ps2 →
      (∀ p ∈ ps, ∃ kvs, p = .pdict kvs) → ∀ p ∈ ps2, ∃ kvs, p = .pdict kvs := by
  intro ps ps2 h hwf p hp
  rcases upsertScan_subset key (.pdict pkvs) ps ps2 h p hp with h2 | h2
  · exact hwf p h2
  · exact ⟨pkvs, h2⟩

theorem upsertScan_distinct (key : String) (person : PyVal) (hpk : pKeyOf person = key) :
    ∀ ps ps2, upsertScan key person ps = some ps2 → distinctKeys ps → distinctKeys ps2
  | [], ps2, h, _ => by
      simp [upsertScan] at h
      subst h
      exact List.pairwise_singleton _ _
  | q :: tl, ps2, h, hd => by
      cases q with
      | pdict kvs =>
          rw [distinctKeys, List.pairwise_cons] at hd
          obtain ⟨hd1, hd2⟩ := hd
          by_cases hk : recKey kvs = key
          · simp [upsertScan, hk] at h
            subst h
            rw [distinctKeys, List.pairwise_cons]
            refine ⟨?_, hd2⟩
            intro p hp
            rw [hpk, ← hk]
            exact hd1 p hp
          · simp [upsertScan, hk] at h
            obtain ⟨ps3, hps3, rfl⟩ := h
            rw [distinctKeys, List.pairwise_cons]
            refine ⟨?_, upsertScan_distinct key person hpk tl ps3 hps3 hd2⟩
            intro p hp
            rcases upsertScan_subset key person tl ps3 hps3 p hp with h2 | h2
            · exact hd1 p h2
            · subst h2
              rw [hpk]
              simpa [pKeyOf] using hk
      | pnull => simp [upsertScan] at h
      | pbool b => simp [upsertScan] at h
      | pnum t => simp [upsertScan] at h
      | pstr s => simp [upsertScan] at h
      | plist xs => simp [upsertScan] at h

theorem upsertScan_filter_key (person : PyVal) (hq : ∃ pkvs, person = .pdict pkvs) :
    ∀ ps ps2, upsertScan (pKeyOf person) person ps = some ps2 → distinctKeys ps →
      ps2.filter (fun p => pKeyOf p == pKeyOf person) = [person]
  | [], ps2, h, _ => by
      simp [upsertScan] at h
      subst h
      simp [List.filter]
  | q :: tl, ps2, h, hd => by
      obtain ⟨pkvs, rfl⟩ := hq
      rw [distinctKeys, List.pairwise_cons] at hd
      obtain ⟨hd1, hd2⟩ := hd
      cases q with
      | pdict kvs =>
          by_cases hk : recKey kvs = pKeyOf (.pdict pkvs)
          · simp only [upsertScan, if_pos hk, Option.some_inj] at h
            subst h
            rw [List.filter_cons_of_pos (by simp)]
            have : tl.filter (fun p => pKeyOf p == pKeyOf (.pdict pkvs)) = [] := by
              rw [List.filter_eq_nil_iff]
              intro p hp
              have := hd1 p hp
              rw [show pKeyOf (.pdict kvs) = recKey kvs from rfl, hk] at this
              simpa using fun he => this he.symm
            rw [this]
          · simp [upsertScan, hk] at h
            obtain ⟨ps3, hps3, rfl⟩ := h
            rw [List.filter_cons_of_neg (by simpa [pKeyOf] using hk)]
            exact upsertScan_filter_key (.pdict pkvs) ⟨pkvs, rfl⟩ tl ps3 hps3 hd2
      | pnull => simp [upsertScan] at h
      | pbool b => simp [upsertScan] at h
      | pnum t => simp [upsertScan] at h
      | pstr s => simp [upsertScan] at h
      | plist xs => simp [upsertScan] at h

theorem upsertScan_filter_other (key k2 : String) (person : PyVal)
    (hpk : pKeyOf person = key) (hne : k2 ≠ key) :
    ∀ ps ps2, upsertScan key person ps = some ps2 →
      ps2.filter (fun p => pKeyOf p == k2) = ps.filter (fun p => pKeyOf p == k2)
  | [], ps2, h => by
      simp [upsertScan] at h
      subst h
      rw [List.filter_cons_of_neg (by simp [hpk]; exact Ne.symm hne)]
  | q :: tl, ps2, h => by
      cases q with
      | pdict kvs =>
          by_cases hk : recKey kvs = key
          · simp only [upsertScan, if_pos hk, Option.some_inj] at h
            subst h
            rw [List.filter_cons_of_neg (by simp [hpk]; exact fun he => hne he.symm),
              List.filter_cons_of_neg (by simp [pKeyOf, hk]; exact fun he => hne he.symm)]
          · simp [upsertScan, hk] at h
            obtain ⟨ps3, hps3, rfl⟩ := h
            by_cases h2 : pKeyOf (PyVal.pdict kvs) = k2
            · rw [List.filter_cons_of_pos (by simp [h2]),
                List.filter_cons_of_pos (by simp [h2]),
                upsertScan_filter_other key k2 person hpk hne tl ps3 hps3]
            · rw [List.filter_cons_of_neg (by simpa using h2),
                List.filter_cons_of_neg (by simpa using h2)]
              exact upsertScan_filter_other key k2 person hpk hne tl ps3 hps3
      | pnull => simp [upsertScan] at h
      | pbool b => simp [upsertScan] at h
      | pnum t => simp [upsertScan] at h
      | pstr s => simp [upsertScan] at h
      | plist xs => simp [upsertScan] at h

theorem upsert_person_no_op (q fb : PyVal) (st : CacheState) (hq : qualifies q = false) :
    upsert_person q fb st = st := by
  cases q with
  | pdict pkvs =>
      simp only [qualifies, decide_eq_false_iff_not, not_not] at hq
      simp [upsert_person, hq]
  | pnull => rfl
  | pbool b => rfl
  | pnum t => rfl
  | pstr s => rfl
  | plist xs => rfl

theorem upsert_step (pkvs bkvs : List (String × PyVal)) (ps : List PyVal)
    (fb : PyVal) (st : CacheState)
    (hst : st.people = some (.pdict bkvs)) (hb : bkvs ≠ [])
    (hpers : pyGet "persons" bkvs = some (.plist ps))
    (hwf : ∀ p ∈ ps, ∃ kvs, p = .pdict kvs)
    (hd : distinctKeys ps)
    (hq : qualifies (.pdict pkvs) = true) :
    ∃ ps2, upsertScan (recKey pkvs) (.pdict pkvs) ps = some ps2 ∧
      (upsert_person (.pdict pkvs) fb st).people
          = some (.pdict (pySet "persons" (.plist ps2) bkvs)) ∧
      pyGet "persons" (pySet "persons" (.plist ps2) bkvs) = some (.plist ps2) ∧
      pySet "persons" (.plist ps2) bkvs ≠ [] ∧
      (∀ p ∈ ps2, ∃ kvs, p = .pdict kvs) ∧ distinctKeys ps2 := by
  simp only [qualifies, decide_eq_true_eq] at hq
  obtain ⟨ps2, hscan⟩ := upsertScan_isSome (recKey pkvs) (.pdict pkvs) ps hwf
  have hscan' : upsertScan (pyLower (pyStrip (pyStr (pyGetD "name" (.pstr "") pkvs))))
      (.pdict pkvs) ps = some ps2 := hscan
  refine ⟨ps2, hscan, ?_, pyGet_pySet_self _ _ _, pySet_ne_nil _ _ _,
    upsertScan_wf (recKey pkvs) pkvs ps ps2 hscan hwf,
    upsertScan_distinct (recKey pkvs) (.pdict pkvs) rfl ps ps2 hscan hd⟩
  rw [upsert_person_eq pkvs bkvs ps ps2 fb st hst hb hpers hq hscan']

theorem fold_upsert_inv (us : List (PyVal × PyVal)) : ∀ (st : CacheState)
    (bkvs : List (String × PyVal)) (ps : List PyVal),
    st.people = some (.pdict bkvs) → bkvs ≠ [] →
    pyGet "persons" bkvs = some (.plist ps) →
    (∀ p ∈ ps, ∃ kvs, p = .pdict kvs) → distinctKeys ps →
    ∃ bkvsF psF,
      (us.foldl (fun st q => upsert_person q.1 q.2 st) st).people = some (.pdict bkvsF) ∧
      bkvsF ≠ [] ∧
      pyGet "persons" bkvsF = some (.plist psF) ∧
      (∀ p ∈ psF, ∃ kvs, p = .pdict kvs) ∧ distinctKeys psF ∧
      (∀ k : String,
        (lastUpsertFor k us = none →
            psF.filter (fun p => pKeyOf p == k) = ps.filter (fun p => pKeyOf p == k)) ∧
        (∀ q, lastUpsertFor k us = some q →
            psF.filter (fun p => pKeyOf p == k) = [q])) := by
  induction us with
  | nil =>
      intro st bkvs ps h1 h2 h3 h4 h5
      exact ⟨bkvs, ps, h1, h2, h3, h4, h5,
        fun k => ⟨fun _ => rfl, fun q hq => by simp [lastUpsertFor] at hq⟩⟩
  | cons qp us ih =>
      intro st bkvs ps h1 h2 h3 h4 h5
      have hcons : (qp :: us).map Prod.fst = qp.1 :: us.map Prod.fst := rfl
      by_cases hq : qualifies qp.1 = true
      · have hqd : ∃ pkvs, qp.1 = PyVal.pdict pkvs := by
          rcases hv : qp.1 with _ | b | t | s | xs | pkvs
          · rw [hv] at hq; simp [qualifies] at hq
          · rw [hv] at hq; simp [qualifies] at hq
          · rw [hv] at hq; simp [qualifies] at hq
          · rw [hv] at hq; simp [qualifies] at hq
          · rw [hv] at hq; simp [qualifies] at hq
          · exact ⟨pkvs, rfl⟩
        obtain ⟨pkvs, hpk⟩ := hqd
        obtain ⟨ps2, hscan, hpeople, hget, hne, hwf2, hd2⟩ :=
          upsert_step pkvs bkvs ps qp.2 st h1 h2 h3 h4 h5 (hpk ▸ hq)
        obtain ⟨bkvsF, psF, f1, f2, f3, f4, f5, f6⟩ :=
          ih (upsert_person qp.1 qp.2 st) (pySet "persons" (.plist ps2) bkvs) ps2
            (hpk ▸ hpeople) hne hget hwf2 hd2
        refine ⟨bkvsF, psF, by simpa using f1, f2, f3, f4, f5, ?_⟩
        intro k
        by_cases hk : pKeyOf qp.1 = k
        · -- the head call targets class k
          constructor
          · intro hnone
            unfold lastUpsertFor at hnone
            rw [hcons, List.filter_cons_of_pos (by simp [hq, hk])] at hnone
            have hiss : (qp.1 :: (us.map Prod.fst).filter
                (fun q => qualifies q && (pKeyOf q == k))).getLast?.isSome := by
              rw [List.getLast?_isSome]
              simp
            rw [hnone] at hiss
            simp at hiss
          · intro q hsome
            unfold lastUpsertFor at hsome
            rw [hcons, List.filter_cons_of_pos (by simp [hq, hk])] at hsome
            rcases hrest : (us.map Prod.fst).filter
                (fun q => qualifies q && (pKeyOf q == k)) with _ | ⟨r, rs⟩
            · rw [hrest] at hsome
              simp at hsome
              subst hsome
              have hfilt := (f6 k).1 (by unfold lastUpsertFor; rw [hrest]; rfl)
              have hkk : pKeyOf (PyVal.pdict pkvs) = k := by rw [← hpk]; exact hk
              have hfk := upsertScan_filter_key (PyVal.pdict pkvs) ⟨pkvs, rfl⟩ ps ps2
                hscan h5
              rw [hkk] at hfk
              rw [hfilt, hpk]
              exact hfk
            · rw [hrest, List.getLast?_cons_cons] at hsome
              exact (f6 k).2 q (by unfold lastUpsertFor; rw [hrest]; exact hsome)
        · -- the head call targets another class
          have hsame : lastUpsertFor k (qp :: us) = lastUpsertFor k us := by
            unfold lastUpsertFor
            rw [hcons, List.filter_cons_of_neg (by simp [hk])]
          constructor
          · intro hnone
            rw [hsame] at hnone
            rw [(f6 k).1 hnone]
            have hner : k ≠ recKey pkvs := by
              intro he
              apply hk
              rw [hpk]
              exact he.symm
            exact upsertScan_filter_other (recKey pkvs) k (.pdict pkvs) rfl hner ps ps2 hscan
          · intro q hsome
            rw [hsame] at hsome
            exact (f6 k).2 q hsome
      · -- non-mutating call
        rw [Bool.not_eq_true] at hq
        have hid : upsert_person qp.1 qp.2 st = st := upsert_person_no_op qp.1 qp.2 st hq
        obtain ⟨bkvsF, psF, f1, f2, f3, f4, f5, f6⟩ := ih st bkvs ps h1 h2 h3 h4 h5
        have hsame : ∀ k, lastUpsertFor k (qp :: us) = lastUpsertFor k us := by
          intro k
          unfold lastUpsertFor
          rw [hcons, List.filter_cons_of_neg (by simp [hq])]
        refine ⟨bkvsF, psF, by simpa [hid] using f1, f2, f3, f4, f5, ?_⟩
        intro k
        exact ⟨fun hn => (f6 k).1 (by rw [← hsame k]; exact hn),
          fun q hs => (f6 k).2 q (by rw [← hsame k]; exact hs)⟩

/-- C2: starting from a cache holding a dataset object whose persons are
record objects with pairwise distinct case-insensitive (trimmed) name
classes, any sequence of `upsert_person` calls leaves a persons sequence
with at most one record per class, and for every class that was
effectively upserted the surviving record is exactly the record of the
most recent upsert of that class. -/
theorem upsert_uniqueness (st : CacheState) (bkvs : List (String × PyVal))
    (ps : List PyVal) (us : List (PyVal × PyVal))
    (hst : st.people = some (.pdict bkvs)) (hb : bkvs ≠ [])
    (hpers : pyGet "persons" bkvs = some (.plist ps))
    (hwf : ∀ p ∈ ps, ∃ kvs, p = .pdict kvs)
    (hd : distinctKeys ps) :
    ∃ bkvsF psF,
      (us.foldl (fun st q => upsert_person q.1 q.2 st) st).people = some (.pdict bkvsF) ∧
      pyGet "persons" bkvsF = some (.plist psF) ∧
      distinctKeys psF ∧
      (∀ k q, lastUpsertFor k us = some q →
          psF.filter (fun p => pKeyOf p == k) = [q]) := by
  obtain ⟨bkvsF, psF, f1, _, f3, _, f5, f6⟩ :=
    fold_upsert_inv us st bkvs ps hst hb hpers hwf hd
  exact ⟨bkvsF, psF, f1, f3, f5, fun k q hq => (f6 k).2 q hq⟩

/-- Witness for C2 at concrete inputs: two upserts of the class "foo"
(records named "foo " and "FOO") over an initial record "Foo" leave
exactly the last record. -/
theorem upsert_uniqueness_witness :
    ∃ bkvsF psF,
      (([(PyVal.pdict [("name", PyVal.pstr "foo ")], c5Fallback),
         (PyVal.pdict [("name", PyVal.pstr "FOO")], c5Fallback)] :
          List (PyVal × PyVal)).foldl (fun st q => upsert_person q.1 q.2 st)
        { people := some (.pdict [("persons", .plist [.pdict [("name", .pstr "Foo")]])])
          names := [], dirty := false, root := none }).people = some (.pdict bkvsF) ∧
      pyGet "persons" bkvsF = some (.plist psF) ∧
      distinctKeys psF ∧
      (∀ k q, lastUpsertFor k
          [(PyVal.pdict [("name", PyVal.pstr "foo ")], c5Fallback),
           (PyVal.pdict [("name", PyVal.pstr "FOO")], c5Fallback)] = some q →
          psF.filter (fun p => pKeyOf p == k) = [q]) :=
  upsert_uniqueness _ [("persons", .plist [.pdict [("name", .pstr "Foo")]])]
    [.pdict [("name", .pstr "Foo")]] _ rfl (by decide) (by decide)
    (by intro p hp
        simp at hp
        exact ⟨[("name", .pstr "Foo")], hp⟩)
    (by simp [distinctKeys])

/-! ### C9: round-trip of save and load -/

theorem string_mk_toList (s : String) : String.mk s.toList = s := by
  cases s
  rfl

theorem skipWs_cons_of_ws {c : Char} (h : isJsonWs c = true) (cs : List Char) :
    skipWs (c :: cs) = skipWs cs := by
  simp [skipWs, h]

theorem skipWs_cons_of_not {c : Char} (h : isJsonWs c = false) (cs : List Char) :
    skipWs (c :: cs) = c :: cs := by
  simp [skipWs, h]

theorem skipWs_append_ws : ∀ (pre cs : List Char), (∀ c ∈ pre, isJsonWs c = true) →
    skipWs (pre ++ cs) = skipWs cs
  | [], cs, _ => rfl
  | c :: pre, cs, h => by
      rw [List.cons_append, skipWs_cons_of_ws (h c (by simp))]
      exact skipWs_append_ws pre cs (fun c2 hc2 => h c2 (by simp [hc2]))

theorem skipWs_indent (n : Nat) (cs : List Char) :
    skipWs (jsonIndent n ++ cs) = skipWs cs := by
  refine skipWs_append_ws _ cs ?_
  intro c hc
  rw [jsonIndent, List.mem_replicate] at hc
  rw [hc.2]
  rfl

theorem parseVal_ws_pre (fuel : Nat) (pre cs : List Char)
    (h : ∀ c ∈ pre, isJsonWs c = true) :
    parseVal fuel (pre ++ cs) = parseVal fuel cs := by
  cases fuel with
  | zero => rfl
  | succ f => simp only [parseVal, skipWs_append_ws pre cs h]

theorem parseItems_ws_pre (fuel : Nat) (pre cs : List Char)
    (h : ∀ c ∈ pre, isJsonWs c = true) :
    parseItems fuel (pre ++ cs) = parseItems fuel cs := by
  cases fuel with
  | zero => rfl
  | succ f => simp only [parseItems, parseVal_ws_pre f pre cs h]

theorem hexVal_hexDigit (n : Nat) (h : n < 16) : hexVal (hexDigit n) = some n := by
  interval_cases n <;> decide

theorem char_ofNat_toNat (c : Char) : Char.ofNat c.toNat = c :=
  Char.ofNat_toNat c

theorem scanDigits_spec : ∀ cs d r, scanDigits cs = (d, r) →
    cs = d ++ r ∧ (∀ c ∈ d, c.isDigit = true) ∧ headDigitFree r
  | [], d, r, h => by
      simp [scanDigits] at h
      obtain ⟨rfl, rfl⟩ := h
      exact ⟨rfl, by simp, trivial⟩
  | c :: cs, d, r, h => by
      by_cases hc : c.isDigit = true
      · rw [scanDigits, if_pos hc] at h
        rcases hrec : scanDigits cs with ⟨d2, r2⟩
        rw [hrec] at h
        obtain ⟨s1, s2, s3⟩ := scanDigits_spec cs d2 r2 hrec
        simp only at h
        cases h
        refine ⟨by rw [s1]; rfl, ?_, s3⟩
        intro x hx
        rcases List.mem_cons.mp hx with rfl | hx2
        · exact hc
        · exact s2 x hx2
      · rw [scanDigits, if_neg hc] at h
        cases h
        exact ⟨rfl, by simp, by simpa [headDigitFree] using hc⟩

theorem scanDigits_append : ∀ (d r : List Char), (∀ c ∈ d, c.isDigit = true) →
    headDigitFree r → scanDigits (d ++ r) = (d, r)
  | [], r, _, hr => by
      cases r with
      | nil => rfl
      | cons c rs =>
          have : c.isDigit = false := hr
          simp [scanDigits, this]
  | c :: d, r, hd, hr => by
      rw [List.cons_append, scanDigits, if_pos (hd c (by simp)),
        scanDigits_append d r (fun x hx => hd x (by simp [hx])) hr]

theorem scanIntPart_shape : ∀ cs ip r, scanIntPart cs = some (ip, r) →
    cs = ip ++ r ∧ (ip = ['0'] ∨ ∃ c ds, ip = c :: ds ∧ c.isDigit = true ∧ c ≠ '0' ∧
        ∀ d ∈ ds, d.isDigit = true)
  | [], ip, r, h => by simp [scanIntPart] at h
  | c :: cs, ip, r, h => by
      by_cases hc : c = '0'
      · rw [scanIntPart, if_pos hc] at h
        cases h
        subst hc
        exact ⟨rfl, Or.inl rfl⟩
      · rw [scanIntPart, if_neg hc] at h
        by_cases hd : c.isDigit = true
        · rw [if_pos hd] at h
          rcases hrec : scanDigits cs with ⟨d2, r2⟩
          rw [hrec] at h
          simp only at h
          obtain ⟨s1, s2, _⟩ := scanDigits_spec cs d2 r2 hrec
          cases h
          exact ⟨by rw [s1]; rfl, Or.inr ⟨c, d2, rfl, hd, hc, s2⟩⟩
        · rw [if_neg hd] at h
          cases h

theorem scanIntPart_rt (ip tail : List Char)
    (hshape : ip = ['0'] ∨ ∃ c ds, ip = c :: ds ∧ c.isDigit = true ∧ c ≠ '0' ∧
        ∀ d ∈ ds, d.isDigit = true)
    (htail : headDigitFree tail) :
    scanIntPart (ip ++ tail) = some (ip, tail) := by
  rcases hshape with rfl | ⟨c, ds, rfl, hd, hc, hds⟩
  · rfl
  · rw [List.cons_append, scanIntPart, if_neg hc, if_pos hd,
      scanDigits_append ds tail hds htail]

theorem scanFrac_shape : ∀ cs fp r, scanFrac cs = (fp, r) →
    cs = fp ++ r ∧ (fp = [] ∨ ∃ ds, ds ≠ [] ∧ (∀ d ∈ ds, d.isDigit = true) ∧
        fp = '.' :: ds)
  | [], fp, r, h => by
      cases h
      exact ⟨rfl, Or.inl rfl⟩
  | c :: cs2, fp, r, h => by
      by_cases hc : c = '.'
      · rw [scanFrac, if_pos hc] at h
        rcases hrec : scanDigits cs2 with ⟨d2, r2⟩
        rw [hrec] at h
        obtain ⟨s1, s2, _⟩ := scanDigits_spec cs2 d2 r2 hrec
        cases d2 with
        | nil =>
            simp only [List.isEmpty_nil, if_true] at h
            cases h
            exact ⟨rfl, Or.inl rfl⟩
        | cons d0 ds =>
            simp only [List.isEmpty_cons, if_false, Bool.false_eq_true] at h
            cases h
            subst hc
            exact ⟨by rw [s1]; rfl, Or.inr ⟨d0 :: ds, by simp, s2, rfl⟩⟩
      · rw [scanFrac, if_neg hc] at h
        cases h
        exact ⟨rfl, Or.inl rfl⟩

theorem scanFrac_rt (fp tail : List Char)
    (hshape : fp = [] ∨ ∃ ds, ds ≠ [] ∧ (∀ d ∈ ds, d.isDigit = true) ∧ fp = '.' :: ds)
    (htail1 : headDigitFree tail)
    (htail2 : headNotDot tail) :
    scanFrac (fp ++ tail) = (fp, tail) := by
  rcases hshape with rfl | ⟨ds, hne, hds, rfl⟩
  · cases tail with
    | nil => rfl
    | cons c cs =>
        have hcc : c ≠ '.' := htail2
        rw [List.nil_append, scanFrac, if_neg hcc]
  · rw [List.cons_append, scanFrac, if_pos rfl, scanDigits_append ds tail hds htail1]
    cases ds with
    | nil => exact absurd rfl hne
    | cons d0 ds2 => rfl

theorem scanExp_shape : ∀ cs ep r, scanExp cs = (ep, r) →
    cs = ep ++ r ∧ (ep = [] ∨ ∃ e sg ds, (e = 'e' ∨ e = 'E') ∧
        (sg = [] ∨ sg = ['+'] ∨ sg = ['-']) ∧ ds ≠ [] ∧
        (∀ d ∈ ds, d.isDigit = true) ∧ ep = e :: (sg ++ ds))
  | [], ep, r, h => by
      cases h
      exact ⟨rfl, Or.inl rfl⟩
  | c :: cs2, ep, r, h => by
      by_cases hc : c = 'e' ∨ c = 'E'
      · cases cs2 with
        | nil =>
            rw [scanExp] at h
            rw [if_pos hc] at h
            cases h
            exact ⟨rfl, Or.inl rfl⟩
        | cons s cs3 =>
            rw [scanExp] at h
            rw [if_pos hc] at h
            by_cases hs : s = '+' ∨ s = '-'
            · rw [if_pos hs] at h
              rcases hrec : scanDigits cs3 with ⟨d2, r2⟩
              rw [hrec] at h
              obtain ⟨s1, s2, _⟩ := scanDigits_spec cs3 d2 r2 hrec
              cases d2 with
              | nil =>
                  simp only [List.isEmpty_nil, if_true] at h
                  cases h
                  exact ⟨rfl, Or.inl rfl⟩
              | cons d0 ds =>
                  simp only [List.isEmpty_cons, if_false, Bool.false_eq_true] at h
                  cases h
                  refine ⟨by rw [s1]; rfl, Or.inr ⟨c, [s], d0 :: ds, hc, ?_, by simp, s2, rfl⟩⟩
                  rcases hs with rfl | rfl
                  · exact Or.inr (Or.inl rfl)
                  · exact Or.inr (Or.inr rfl)
            · rw [if_neg hs] at h
              rcases hrec : scanDigits (s :: cs3) with ⟨d2, r2⟩
              rw [hrec] at h
              obtain ⟨s1, s2, _⟩ := scanDigits_spec (s :: cs3) d2 r2 hrec
              cases d2 with
              | nil =>
                  simp only [List.isEmpty_nil, if_true] at h
                  cases h
                  exact ⟨rfl, Or.inl rfl⟩
              | cons d0 ds =>
                  simp only [List.isEmpty_cons, if_false, Bool.false_eq_true] at h
                  cases h
                  exact ⟨by rw [s1]; rfl, Or.inr ⟨c, [], d0 :: ds, hc, Or.inl rfl, by simp,
                    s2, rfl⟩⟩
      · cases cs2 with
        | nil =>
            rw [scanExp] at h
            rw [if_neg hc] at h
            cases h
            exact ⟨rfl, Or.inl rfl⟩
        | cons s cs3 =>
            rw [scanExp] at h
            rw [if_neg hc] at h
            cases h
            exact ⟨rfl, Or.inl rfl⟩

theorem scanExp_rt (ep tail : List Char)
    (hshape : ep = [] ∨ ∃ e sg ds, (e = 'e' ∨ e = 'E') ∧
        (sg = [] ∨ sg = ['+'] ∨ sg = ['-']) ∧ ds ≠ [] ∧
        (∀ d ∈ ds, d.isDigit = true) ∧ ep = e :: (sg ++ ds))
    (htail1 : headDigitFree tail)
    (htail2 : headNotExpSign tail) :
    scanExp (ep ++ tail) = (ep, tail) := by
  rcases hshape with rfl | ⟨e, sg, ds, he, hsg, hne, hds, rfl⟩
  · cases tail with
    | nil => rfl
    | cons c cs =>
        cases cs with
        | nil =>
            rw [List.nil_append, scanExp, if_neg htail2.1]
        | cons c2 cs2 =>
            rw [List.nil_append, scanExp, if_neg htail2.1]
  · obtain ⟨d0, ds2, rfl⟩ : ∃ d0 ds2, ds = d0 :: ds2 := by
      cases ds with
      | nil => exact absurd rfl hne
      | cons d0 ds2 => exact ⟨d0, ds2, rfl⟩
    have hdig0 := scanDigits_append (d0 :: ds2) tail hds htail1
    have hdig := hdig0
    rw [List.cons_append] at hdig
    rcases hsg with rfl | rfl | rfl
    · have hd0 : ¬(d0 = '+' ∨ d0 = '-') := by
        have := hds d0 (by simp)
        rintro (rfl | rfl) <;> simp at this
      have hgoal : (e :: ([] ++ (d0 :: ds2))) ++ tail = e :: d0 :: (ds2 ++ tail) := by simp
      rw [hgoal, scanExp, if_pos he, if_neg hd0, hdig]
      simp
    · have hgoal : (e :: (['+'] ++ (d0 :: ds2))) ++ tail = e :: '+' :: (d0 :: ds2) ++ tail := by
        simp
      rw [hgoal, List.cons_append, List.cons_append, scanExp, if_pos he,
        if_pos (Or.inl rfl)]
      rw [hdig0]
      simp
    · have hgoal : (e :: (['-'] ++ (d0 :: ds2))) ++ tail = e :: '-' :: (d0 :: ds2) ++ tail := by
        simp
      rw [hgoal, List.cons_append, List.cons_append, scanExp, if_pos he,
        if_pos (Or.inr rfl)]
      rw [hdig0]
      simp

/-- The structural decomposition of a valid JSON number token. -/
def numShape (sign ip fp ep : List Char) : Prop :=
  (sign = [] ∨ sign = ['-']) ∧
  (ip = ['0'] ∨ ∃ c ds, ip = c :: ds ∧ c.isDigit = true ∧ c ≠ '0' ∧
      ∀ d ∈ ds, d.isDigit = true) ∧
  (fp = [] ∨ ∃ ds, ds ≠ [] ∧ (∀ d ∈ ds, d.isDigit = true) ∧ fp = '.' :: ds) ∧
  (ep = [] ∨ ∃ e sg ds, (e = 'e' ∨ e = 'E') ∧ (sg = [] ∨ sg = ['+'] ∨ sg = ['-']) ∧
      ds ≠ [] ∧ (∀ d ∈ ds, d.isDigit = true) ∧ ep = e :: (sg ++ ds))

theorem validNumToken_shape (t : String) (h : validNumToken t = true) :
    ∃ sign ip fp ep, t.toList = sign ++ ip ++ fp ++ ep ∧ numShape sign ip fp ep := by
  unfold validNumToken at h
  rcases hsn : scanNumber t.toList with _ | ⟨tok, rest⟩
  · rw [hsn] at h; cases h
  · rw [hsn] at h
    simp only [Bool.and_eq_true, beq_iff_eq, List.isEmpty_iff] at h
    obtain ⟨htok, hrest⟩ := h
    subst htok
    subst hrest
    rcases hcs : t.toList with _ | ⟨c, cs2⟩
    · rw [hcs] at hsn; cases hsn
    · rw [hcs] at hsn
      simp only [scanNumber] at hsn
      by_cases hm : c = '-'
      · rw [if_pos hm] at hsn
        rcases hip : scanIntPart cs2 with _ | ⟨ip, r1⟩
        · rw [hip] at hsn; cases hsn
        · rw [hip] at hsn
          rcases hfp : scanFrac r1 with ⟨fp, r2⟩
          rcases hep : scanExp r2 with ⟨ep, r3⟩
          simp only [hfp, hep, Option.map_some'] at hsn
          obtain ⟨i1, i2⟩ := scanIntPart_shape cs2 ip r1 hip
          obtain ⟨f1, f2⟩ := scanFrac_shape r1 fp r2 hfp
          obtain ⟨e1, e2⟩ := scanExp_shape r2 ep r3 hep
          simp only [Option.some_inj, Prod.mk.injEq] at hsn
          obtain ⟨hsn1, hsn2⟩ := hsn
          refine ⟨['-'], ip, fp, ep, ?_, Or.inr rfl, i2, f2, e2⟩
          rw [← hsn1]
          simp
      · rw [if_neg hm] at hsn
        rcases hip : scanIntPart (c :: cs2) with _ | ⟨ip, r1⟩
        · rw [hip] at hsn; cases hsn
        · rw [hip] at hsn
          rcases hfp : scanFrac r1 with ⟨fp, r2⟩
          rcases hep : scanExp r2 with ⟨ep, r3⟩
          simp only [hfp, hep, Option.map_some'] at hsn
          obtain ⟨i1, i2⟩ := scanIntPart_shape (c :: cs2) ip r1 hip
          obtain ⟨f1, f2⟩ := scanFrac_shape r1 fp r2 hfp
          obtain ⟨e1, e2⟩ := scanExp_shape r2 ep r3 hep
          simp only [Option.some_inj, Prod.mk.injEq] at hsn
          obtain ⟨hsn1, hsn2⟩ := hsn
          exact ⟨[], ip, fp, ep, by rw [← hsn1]; simp, Or.inl rfl, i2, f2, e2⟩

theorem headSafe_digitFree {rest : List Char} (h : headSafe rest) : headDigitFree rest := by
  cases rest with
  | nil => trivial
  | cons c cs =>
      have hb : numBoundary c = true := h
      rw [numBoundary] at hb
      simp only [Bool.not_eq_true', Bool.or_eq_false_iff] at hb
      exact hb.1.1.1.1.1

theorem headSafe_chars {rest : List Char} (h : headSafe rest) :
    headNotDot rest ∧ headNotExpSign rest := by
  cases rest with
  | nil => exact ⟨trivial, trivial⟩
  | cons c cs =>
      have hb : numBoundary c = true := h
      rw [numBoundary] at hb
      simp only [Bool.not_eq_true', Bool.or_eq_false_iff, decide_eq_false_iff_not] at hb
      obtain ⟨⟨⟨⟨⟨_, h2⟩, h3⟩, h4⟩, h5⟩, h6⟩ := hb
      exact ⟨h2, fun he => he.elim h3 h4, fun he => he.elim h5 h6⟩

theorem ip_head_digit (ip : List Char)
    (hshape : ip = ['0'] ∨ ∃ c ds, ip = c :: ds ∧ c.isDigit = true ∧ c ≠ '0' ∧
        ∀ d ∈ ds, d.isDigit = true) :
    ∃ c ds, ip = c :: ds ∧ c.isDigit = true := by
  rcases hshape with rfl | ⟨c, ds, rfl, hd, _, _⟩
  · exact ⟨'0', [], rfl, by decide⟩
  · exact ⟨c, ds, rfl, hd⟩

theorem scanNumber_rt (t : String) (rest : List Char) (h : validNumToken t = true)
    (hr : headSafe rest) : scanNumber (t.toList ++ rest) = some (t.toList, rest) := by
  obtain ⟨sign, ip, fp, ep, heq, hsign, hip, hfp, hep⟩ := validNumToken_shape t h
  have hdf : headDigitFree rest := headSafe_digitFree hr
  have hch := headSafe_chars hr
  have heprest_df : headDigitFree (ep ++ rest) := by
    rcases hep with rfl | ⟨e, sg, ds, he, _, _, _, rfl⟩
    · simpa using hdf
    · rcases he with rfl | rfl
      · show ('e').isDigit = false
        decide
      · show ('E').isDigit = false
        decide
  have hfpep : headDigitFree (fp ++ (ep ++ rest)) := by
    rcases hfp with rfl | ⟨ds, _, _, rfl⟩
    · simpa using heprest_df
    · show ('.').isDigit = false
      decide
  have heprest_dot : headNotDot (ep ++ rest) := by
    rcases hep with rfl | ⟨e, sg, ds, he, _, _, _, rfl⟩
    · simpa using hch.1
    · rcases he with rfl | rfl
      · show ('e') ≠ '.'
        decide
      · show ('E') ≠ '.'
        decide
  have hintp : scanIntPart (ip ++ (fp ++ (ep ++ rest))) = some (ip, fp ++ (ep ++ rest)) :=
    scanIntPart_rt ip (fp ++ (ep ++ rest)) hip hfpep
  have hfrac : scanFrac (fp ++ (ep ++ rest)) = (fp, ep ++ rest) :=
    scanFrac_rt fp (ep ++ rest) hfp heprest_df heprest_dot
  have hexp : scanExp (ep ++ rest) = (ep, rest) :=
    scanExp_rt ep rest hep hdf hch.2
  rcases hsign with rfl | rfl
  · -- no sign: the head is a digit
    obtain ⟨c, ds, hipc, hcd⟩ := ip_head_digit ip hip
    have hcm : c ≠ '-' := by
      intro hc
      rw [hc] at hcd
      simp at hcd
    rw [heq]
    have hshape2 : (([] ++ ip ++ fp ++ ep) ++ rest) = c :: (ds ++ (fp ++ (ep ++ rest))) := by
      rw [hipc]
      simp
    rw [hshape2, scanNumber, if_neg hcm]
    have hintp2 : scanIntPart (c :: (ds ++ (fp ++ (ep ++ rest))))
        = some (c :: ds, fp ++ (ep ++ rest)) := by
      rw [hipc, List.cons_append] at hintp
      exact hintp
    rw [hintp2]
    simp only [Option.map_some']
    rw [hfrac, hexp]
    rw [hipc]
    simp
  · -- a minus sign
    rw [heq]
    have hshape2 : ((['-'] ++ ip ++ fp ++ ep) ++ rest) = '-' :: (ip ++ (fp ++ (ep ++ rest))) := by
      simp
    rw [hshape2, scanNumber, if_pos rfl, hintp]
    simp only [Option.map_some']
    rw [hfrac, hexp]
    simp

theorem parseStrBody_escape : ∀ (l rest : List Char),
    parseStrBody (jsonEscapeL l ++ '"' :: rest) = some (l, rest)
  | [], rest => by
      show parseStrBody ('"' :: rest) = some ([], rest)
      rw [parseStrBody, if_pos rfl]
  | c :: l, rest => by
      have ih := parseStrBody_escape l rest
      rw [show jsonEscapeL (c :: l) = jsonEscapeChar c ++ jsonEscapeL l from rfl]
      by_cases h1 : c = '"'
      · subst h1
        simpa [jsonEscapeChar, parseStrBody, parseEsc, escDecode] using ih
      by_cases h2 : c = '\\'
      · subst h2
        simpa [jsonEscapeChar, parseStrBody, parseEsc, escDecode] using ih
      by_cases h3 : c = '\n'
      · subst h3
        simpa [jsonEscapeChar, parseStrBody, parseEsc, escDecode] using ih
      by_cases h4 : c = '\r'
      · subst h4
        simpa [jsonEscapeChar, parseStrBody, parseEsc, escDecode] using ih
      by_cases h5 : c = '\t'
      · subst h5
        simpa [jsonEscapeChar, parseStrBody, parseEsc, escDecode] using ih
      by_cases h6 : c = Char.ofNat 8
      · subst h6
        simpa [jsonEscapeChar, parseStrBody, parseEsc, escDecode] using ih
      by_cases h7 : c = Char.ofNat 12
      · subst h7
        simpa [jsonEscapeChar, parseStrBody, parseEsc, escDecode] using ih
      by_cases h8 : c.toNat < 32
      · rw [show jsonEscapeChar c = ['\\', 'u', '0', '0', hexDigit (c.toNat / 16),
            hexDigit (c.toNat % 16)] from by
          rw [jsonEscapeChar, if_neg h1, if_neg h2, if_neg h3, if_neg h4, if_neg h5,
            if_neg h6, if_neg h7, if_pos h8]]
        have hv1 : hexVal (hexDigit (c.toNat / 16)) = some (c.toNat / 16) :=
          hexVal_hexDigit _ (by omega)
        have hv2 : hexVal (hexDigit (c.toNat % 16)) = some (c.toNat % 16) :=
          hexVal_hexDigit _ (by omega)
        have harith : ((0 * 16 + 0) * 16 + c.toNat / 16) * 16 + c.toNat % 16 = c.toNat := by
          omega
        have hvalid : (((0 * 16 + 0) * 16 + c.toNat / 16) * 16 + c.toNat % 16).isValidChar := by
          rw [harith]
          exact Or.inl (by omega)
        have hvc : c.toNat.isValidChar := Or.inl (by omega)
        have hv0 : hexVal '0' = some 0 := by decide
        simp [parseStrBody, parseEsc, hv0, hv1, hv2, hvc, char_ofNat_toNat, ih]
        have hdm : c.toNat / 16 * 16 + c.toNat % 16 = c.toNat := by omega
        constructor
        · rw [hdm]
          exact hvc
        · rw [hdm]
          exact char_ofNat_toNat c
      · rw [show jsonEscapeChar c = [c] from by
          rw [jsonEscapeChar, if_neg h1, if_neg h2, if_neg h3, if_neg h4, if_neg h5,
            if_neg h6, if_neg h7, if_neg h8]]
        show parseStrBody (c :: (jsonEscapeL l ++ '"' :: rest)) = some (c :: l, rest)
        rw [parseStrBody, if_neg h1, if_neg h2, if_neg h8, ih]
        rfl

theorem parseEntries_ws_pre (fuel : Nat) (pre cs : List Char)
    (h : ∀ c ∈ pre, isJsonWs c = true) :
    parseEntries fuel (pre ++ cs) = parseEntries fuel cs := by
  cases fuel with
  | zero => rfl
  | succ f => simp only [parseEntries, skipWs_append_ws pre cs h]

theorem restOk_headSafe {rest : List Char} (h : restOk rest) : headSafe rest := by
  cases rest with
  | nil => trivial
  | cons c cs =>
      rcases h with rfl | rfl
      · show numBoundary ',' = true
        decide
      · show numBoundary '\n' = true
        decide

theorem digit_facts (c : Char) (h : c.isDigit = true) :
    isJsonWs c = false ∧ c ≠ '"' ∧ c ≠ '[' ∧ c ≠ '{' ∧ c ≠ 'n' ∧ c ≠ 't' ∧ c ≠ 'f' ∧
      c ≠ ']' ∧ c ≠ '}' := by
  refine ⟨?_, ?_, ?_, ?_, ?_, ?_, ?_, ?_, ?_⟩
  · cases hw : isJsonWs c with
    | false => rfl
    | true =>
        exfalso
        simp only [isJsonWs, Bool.or_eq_true, decide_eq_true_eq] at hw
        rcases hw with ((((rfl | rfl) | rfl) | rfl) | rfl) | rfl <;> exact absurd h (by decide)
  all_goals (rintro rfl; exact absurd h (by decide))

theorem validNumToken_head (t : String) (h : validNumToken t = true) :
    ∃ c cs, t.toList = c :: cs ∧ (c = '-' ∨ c.isDigit = true) := by
  obtain ⟨sign, ip, fp, ep, heq, hsign, hip, _, _⟩ := validNumToken_shape t h
  obtain ⟨c, ds, hipc, hcd⟩ := ip_head_digit ip hip
  rcases hsign with rfl | rfl
  · exact ⟨c, ds ++ fp ++ ep, by rw [heq, hipc]; simp, Or.inr hcd⟩
  · exact ⟨'-', ip ++ fp ++ ep, by rw [heq]; simp, Or.inl rfl⟩

/-- The first character a serialized value can start with. -/
theorem serVal_head (lvl : Nat) (v : PyVal) (hwf : wfNums v = true) :
    ∃ c cs, serVal lvl v = c :: cs ∧ isJsonWs c = false ∧ c ≠ ']' ∧ c ≠ '}' := by
  cases v with
  | pnull => exact ⟨'n', _, rfl, rfl, by decide, by decide⟩
  | pbool b =>
      cases b
      · exact ⟨'f', _, rfl, rfl, by decide, by decide⟩
      · exact ⟨'t', _, rfl, rfl, by decide, by decide⟩
  | pnum t =>
      obtain ⟨c, cs, hcs, hcd⟩ := validNumToken_head t (by simpa [wfNums] using hwf)
      refine ⟨c, cs, by rw [serVal, hcs], ?_, ?_, ?_⟩
      · rcases hcd with rfl | hd
        · decide
        · exact (digit_facts c hd).1
      · rcases hcd with rfl | hd
        · decide
        · exact (digit_facts c hd).2.2.2.2.2.2.2.1
      · rcases hcd with rfl | hd
        · decide
        · exact (digit_facts c hd).2.2.2.2.2.2.2.2
  | pstr s => exact ⟨'"', _, rfl, by decide, by decide, by decide⟩
  | plist xs => cases xs with
      | nil => exact ⟨'[', _, rfl, by decide, by decide, by decide⟩
      | cons x xs => exact ⟨'[', _, rfl, by decide, by decide, by decide⟩
  | pdict kvs => cases kvs with
      | nil => exact ⟨'{', _, rfl, by decide, by decide, by decide⟩
      | cons kv kvs => exact ⟨'{', _, rfl, by decide, by decide, by decide⟩

/-- The first character of serialized items is the first character of the
first item's serialization. -/
theorem serItems_head (lvl : Nat) (x : PyVal) (xs : List PyVal)
    (hwf : wfNums x = true) :
    ∃ c cs, serItems lvl (x :: xs) = c :: cs ∧ isJsonWs c = false ∧ c ≠ ']' ∧ c ≠ '}' := by
  obtain ⟨c, cs, hser, hw, h1, h2⟩ := serVal_head lvl x hwf
  cases xs with
  | nil => exact ⟨c, cs, by rw [serItems, hser], hw, h1, h2⟩
  | cons y ys =>
      refine ⟨c, cs ++ ',' :: '\n' :: jsonIndent lvl ++ serItems lvl (y :: ys), ?_, hw, h1, h2⟩
      rw [serItems, hser]
      rfl

theorem pfuel_pos (v : PyVal) : 1 ≤ pfuel v := by
  cases v with
  | plist xs => cases xs <;> simp [pfuel]
  | pdict kvs => cases kvs <;> simp [pfuel]
  | pnull => simp [pfuel]
  | pbool b => simp [pfuel]
  | pnum t => simp [pfuel]
  | pstr s => simp [pfuel]

theorem parseVal_null (f : Nat) (rest : List Char) :
    parseVal (f + 1) ('n' :: 'u' :: 'l' :: 'l' :: rest) = some (.pnull, rest) := by
  rw [parseVal, skipWs_cons_of_not (by decide)]
  simp

theorem parseVal_true (f : Nat) (rest : List Char) :
    parseVal (f + 1) ('t' :: 'r' :: 'u' :: 'e' :: rest) = some (.pbool true, rest) := by
  rw [parseVal, skipWs_cons_of_not (by decide)]
  simp

theorem parseVal_false (f : Nat) (rest : List Char) :
    parseVal (f + 1) ('f' :: 'a' :: 'l' :: 's' :: 'e' :: rest) = some (.pbool false, rest) := by
  rw [parseVal, skipWs_cons_of_not (by decide)]
  simp

theorem parseVal_str (f : Nat) (cs2 : List Char) :
    parseVal (f + 1) ('"' :: cs2)
      = (parseStrBody cs2).map (fun p => (.pstr (String.mk p.1), p.2)) := by
  rw [parseVal, skipWs_cons_of_not (by decide)]
  simp

theorem parseVal_num (f : Nat) (c : Char) (cs2 : List Char)
    (h1 : isJsonWs c = false) (h2 : c ≠ '"') (h3 : c ≠ '[') (h4 : c ≠ '{')
    (h5 : c ≠ 'n') (h6 : c ≠ 't') (h7 : c ≠ 'f') :
    parseVal (f + 1) (c :: cs2)
      = (scanNumber (c :: cs2)).map (fun p => (.pnum (String.mk p.1), p.2)) := by
  rw [parseVal, skipWs_cons_of_not h1]
  simp only [if_neg h2, if_neg h3, if_neg h4, if_neg h5, if_neg h6, if_neg h7]

theorem parseVal_list_empty (f : Nat) (cs2 r2 : List Char) (hskip : skipWs cs2 = ']' :: r2) :
    parseVal (f + 1) ('[' :: cs2) = some (.plist [], r2) := by
  rw [parseVal, skipWs_cons_of_not (by decide)]
  simp only [if_neg (by decide : ¬('[' = '"')), hskip]
  rw [if_pos True.intro]

theorem parseVal_list_items (f : Nat) (cs2 : List Char) (c0 : Char) (r0 : List Char)
    (hskip : skipWs cs2 = c0 :: r0) (hne : c0 ≠ ']') :
    parseVal (f + 1) ('[' :: cs2)
      = (parseItems f (c0 :: r0)).map (fun p => (.plist p.1, p.2)) := by
  rw [parseVal, skipWs_cons_of_not (by decide)]
  simp only [if_neg (by decide : ¬('[' = '"')), hskip]
  rw [if_pos True.intro]
  split
  · next r2 heq =>
      injection heq with hh1 hh2
      exact absurd hh1 hne
  · rfl

theorem parseVal_dict_empty (f : Nat) (cs2 r2 : List Char) (hskip : skipWs cs2 = '}' :: r2) :
    parseVal (f + 1) ('{' :: cs2) = some (.pdict [], r2) := by
  rw [parseVal, skipWs_cons_of_not (by decide)]
  simp only [if_neg (by decide : ¬('{' = '"')), if_neg (by decide : ¬('{' = '[')), hskip]
  rw [if_pos True.intro]

theorem parseVal_dict_entries (f : Nat) (cs2 : List Char) (c0 : Char) (r0 : List Char)
    (hskip : skipWs cs2 = c0 :: r0) (hne : c0 ≠ '}') :
    parseVal (f + 1) ('{' :: cs2)
      = (parseEntries f (c0 :: r0)).map (fun p => (.pdict p.1, p.2)) := by
  rw [parseVal, skipWs_cons_of_not (by decide)]
  simp only [if_neg (by decide : ¬('{' = '"')), if_neg (by decide : ¬('{' = '[')), hskip]
  rw [if_pos True.intro]
  split
  · next r2 heq =>
      injection heq with hh1 hh2
      exact absurd hh1 hne
  · rfl

theorem parseItems_step_last (f : Nat) (cs r r2 : List Char) (v : PyVal)
    (hp : parseVal f cs = some (v, r)) (hskip : skipWs r = ']' :: r2) :
    parseItems (f + 1) cs = some ([v], r2) := by
  simp [parseItems, hp, hskip]

theorem parseItems_step_cons (f : Nat) (cs r r2 : List Char) (v : PyVal)
    (hp : parseVal f cs = some (v, r)) (hskip : skipWs r = ',' :: r2) :
    parseItems (f + 1) cs = (parseItems f r2).map (fun p => (v :: p.1, p.2)) := by
  simp [parseItems, hp, hskip]

theorem parseEntries_step_last (f : Nat) (cs r r1 r2 r3 r4 : List Char)
    (kb : List Char) (v : PyVal)
    (hskip0 : skipWs cs = '"' :: r) (hstr : parseStrBody r = some (kb, r1))
    (hskip1 : skipWs r1 = ':' :: r2) (hval : parseVal f r2 = some (v, r3))
    (hskip2 : skipWs r3 = '}' :: r4) :
    parseEntries (f + 1) cs = some ([(String.mk kb, v)], r4) := by
  simp [parseEntries, hskip0, hstr, hskip1, hval, hskip2]

theorem parseEntries_step_cons (f : Nat) (cs r r1 r2 r3 r4 : List Char)
    (kb : List Char) (v : PyVal)
    (hskip0 : skipWs cs = '"' :: r) (hstr : parseStrBody r = some (kb, r1))
    (hskip1 : skipWs r1 = ':' :: r2) (hval : parseVal f r2 = some (v, r3))
    (hskip2 : skipWs r3 = ',' :: r4) :
    parseEntries (f + 1) cs
      = (parseEntries f r4).map (fun p => ((String.mk kb, v) :: p.1, p.2)) := by
  simp [parseEntries, hskip0, hstr, hskip1, hval, hskip2]

theorem ws_nl_indent (lvl : Nat) : ∀ c ∈ ('\n' :: jsonIndent lvl), isJsonWs c = true := by
  intro c hc
  rcases List.mem_cons.mp hc with rfl | hc2
  · decide
  · rw [jsonIndent, List.mem_replicate] at hc2
    rw [hc2.2]
    decide

mutual

/-- Parsing inverts serialization for a value whose numeric tokens are
valid, for any fuel at least `pfuel v` and any following characters a
document can put after a value. -/
theorem parse_ser : ∀ (v : PyVal) (lvl fuel : Nat) (rest : List Char),
    wfNums v = true → restOk rest → pfuel v ≤ fuel →
    parseVal fuel (serVal lvl v ++ rest) = some (v, rest)
  | .pnull, lvl, fuel, rest, _, _, hfu => by
      obtain ⟨f, rfl⟩ : ∃ f, fuel = f + 1 := by
        cases fuel with
        | zero => exact absurd hfu (by simp [pfuel])
        | succ f => exact ⟨f, rfl⟩
      exact parseVal_null f rest
  | .pbool true, lvl, fuel, rest, _, _, hfu => by
      obtain ⟨f, rfl⟩ : ∃ f, fuel = f + 1 := by
        cases fuel with
        | zero => exact absurd hfu (by simp [pfuel])
        | succ f => exact ⟨f, rfl⟩
      exact parseVal_true f rest
  | .pbool false, lvl, fuel, rest, _, _, hfu => by
      obtain ⟨f, rfl⟩ : ∃ f, fuel = f + 1 := by
        cases fuel with
        | zero => exact absurd hfu (by simp [pfuel])
        | succ f => exact ⟨f, rfl⟩
      exact parseVal_false f rest
  | .pnum t, lvl, fuel, rest, hwf, hro, hfu => by
      obtain ⟨f, rfl⟩ : ∃ f, fuel = f + 1 := by
        cases fuel with
        | zero => exact absurd hfu (by simp [pfuel])
        | succ f => exact ⟨f, rfl⟩
      have hv : validNumToken t = true := hwf
      obtain ⟨c, cs, hcs, hcd⟩ := validNumToken_head t hv
      have hsc := scanNumber_rt t rest hv (restOk_headSafe hro)
      have hf : isJsonWs c = false ∧ c ≠ '"' ∧ c ≠ '[' ∧ c ≠ '{' ∧ c ≠ 'n' ∧
          c ≠ 't' ∧ c ≠ 'f' := by
        rcases hcd with rfl | hd
        · exact ⟨by decide, by decide, by decide, by decide, by decide, by decide, by decide⟩
        · obtain ⟨w, a1, a2, a3, a4, a5, a6, _, _⟩ := digit_facts c hd
          exact ⟨w, a1, a2, a3, a4, a5, a6⟩
      show parseVal (f + 1) (t.toList ++ rest) = some (.pnum t, rest)
      rw [hcs, List.cons_append,
        parseVal_num f c (cs ++ rest) hf.1 hf.2.1 hf.2.2.1 hf.2.2.2.1 hf.2.2.2.2.1
          hf.2.2.2.2.2.1 hf.2.2.2.2.2.2, ← List.cons_append, ← hcs, hsc]
      simp [string_mk_toList]
  | .pstr s, lvl, fuel, rest, _, _, hfu => by
      obtain ⟨f, rfl⟩ : ∃ f, fuel = f + 1 := by
        cases fuel with
        | zero => exact absurd hfu (by simp [pfuel])
        | succ f => exact ⟨f, rfl⟩
      have hshape : serVal lvl (.pstr s) ++ rest
          = '"' :: (jsonEscapeL s.toList ++ '"' :: rest) := by
        rw [serVal, jsonEscape]
        simp
      rw [hshape, parseVal_str, parseStrBody_escape]
      simp [string_mk_toList]
  | .plist [], lvl, fuel, rest, _, _, hfu => by
      obtain ⟨f, rfl⟩ : ∃ f, fuel = f + 1 := by
        cases fuel with
        | zero => exact absurd hfu (by simp [pfuel])
        | succ f => exact ⟨f, rfl⟩
      exact parseVal_list_empty f (']' :: rest) rest (skipWs_cons_of_not (by decide) rest)
  | .plist (x :: xs), lvl, fuel, rest, hwf, hro, hfu => by
      obtain ⟨f, rfl⟩ : ∃ f, fuel = f + 1 := by
        cases fuel with
        | zero => exact absurd hfu (by simp [pfuel])
        | succ f => exact ⟨f, rfl⟩
      have hwx : wfNums x = true ∧ wfNumsL xs = true := by
        have h0 : wfNums (.plist (x :: xs)) = (wfNums x && wfNumsL xs) := rfl
        rw [h0, Bool.and_eq_true] at hwf
        exact hwf
      obtain ⟨c0, cs0, hitems, hw0, hne0, _⟩ := serItems_head (lvl + 1) x xs hwx.1
      have hshape : serVal lvl (.plist (x :: xs)) ++ rest
          = '[' :: ('\n' :: (jsonIndent (lvl + 1)
              ++ (serItems (lvl + 1) (x :: xs)
                  ++ ('\n' :: (jsonIndent lvl ++ (']' :: rest)))))) := by
        rw [serVal]
        simp
      have hskip : skipWs ('\n' :: (jsonIndent (lvl + 1)
              ++ (serItems (lvl + 1) (x :: xs)
                  ++ ('\n' :: (jsonIndent lvl ++ (']' :: rest))))))
          = c0 :: (cs0 ++ ('\n' :: (jsonIndent lvl ++ (']' :: rest)))) := by
        rw [@skipWs_cons_of_ws '\n' (by decide) _, skipWs_indent, hitems, List.cons_append,
          skipWs_cons_of_not hw0]
      rw [hshape, parseVal_list_items f _ c0 _ hskip hne0, ← List.cons_append, ← hitems]
      have hfu2 : pfuelItems (x :: xs) ≤ f := by
        have h0 : pfuel (.plist (x :: xs)) = 1 + pfuelItems (x :: xs) := rfl
        omega
      rw [parse_ser_items x xs (lvl + 1) f lvl rest (by
          rw [wfNumsL, Bool.and_eq_true]
          exact hwx) hfu2]
      rfl
  | .pdict [], lvl, fuel, rest, _, _, hfu => by
      obtain ⟨f, rfl⟩ : ∃ f, fuel = f + 1 := by
        cases fuel with
        | zero => exact absurd hfu (by simp [pfuel])
        | succ f => exact ⟨f, rfl⟩
      exact parseVal_dict_empty f ('}' :: rest) rest (skipWs_cons_of_not (by decide) rest)
  | .pdict (kv :: kvs), lvl, fuel, rest, hwf, hro, hfu => by
      obtain ⟨f, rfl⟩ : ∃ f, fuel = f + 1 := by
        cases fuel with
        | zero => exact absurd hfu (by simp [pfuel])
        | succ f => exact ⟨f, rfl⟩
      have hwx : wfNums kv.2 = true ∧ wfNumsD kvs = true := by
        have h0 : wfNums (.pdict (kv :: kvs)) = (wfNums kv.2 && wfNumsD kvs) := by
          cases kv
          rfl
        rw [h0, Bool.and_eq_true] at hwf
        exact hwf
      have hshape : serVal lvl (.pdict (kv :: kvs)) ++ rest
          = '{' :: ('\n' :: (jsonIndent (lvl + 1)
              ++ (serEntries (lvl + 1) (kv :: kvs)
                  ++ ('\n' :: (jsonIndent lvl ++ ('}' :: rest)))))) := by
        rw [serVal]
        simp
      have hitems : ∃ cs0, serEntries (lvl + 1) (kv :: kvs) = '"' :: cs0 := by
        cases kv with
        | mk k v =>
            cases kvs with
            | nil => exact ⟨_, rfl⟩
            | cons e es => exact ⟨_, rfl⟩
      obtain ⟨cs0, hentries⟩ := hitems
      have hskip : skipWs ('\n' :: (jsonIndent (lvl + 1)
              ++ (serEntries (lvl + 1) (kv :: kvs)
                  ++ ('\n' :: (jsonIndent lvl ++ ('}' :: rest))))))
          = '"' :: (cs0 ++ ('\n' :: (jsonIndent lvl ++ ('}' :: rest)))) := by
        rw [@skipWs_cons_of_ws '\n' (by decide) _, skipWs_indent, hentries, List.cons_append,
          @skipWs_cons_of_not '"' (by decide) _]
      rw [hshape, parseVal_dict_entries f _ '"' _ hskip (by decide), ← List.cons_append,
        ← hentries]
      have hfu2 : pfuelEntries (kv :: kvs) ≤ f := by
        have h0 : pfuel (.pdict (kv :: kvs)) = 1 + pfuelEntries (kv :: kvs) := rfl
        omega
      rw [parse_ser_entries kv kvs (lvl + 1) f lvl rest (by
          cases kv
          rw [wfNumsD, Bool.and_eq_true]
          exact hwx) hfu2]
      rfl
termination_by v => sizeOf v

/-- Parsing inverts serialization of one or more array items followed by
the closing newline, indentation and bracket. -/
theorem parse_ser_items : ∀ (x : PyVal) (xs : List PyVal) (lvl fuel n : Nat)
    (rest : List Char),
    wfNumsL (x :: xs) = true → pfuelItems (x :: xs) ≤ fuel →
    parseItems fuel (serItems lvl (x :: xs) ++ ('\n' :: (jsonIndent n ++ (']' :: rest))))
      = some (x :: xs, rest)
  | x, [], lvl, fuel, n, rest, hwf, hfu => by
      obtain ⟨f, rfl⟩ : ∃ f, fuel = f + 1 := by
        cases fuel with
        | zero => exact absurd hfu (by simp [pfuelItems])
        | succ f => exact ⟨f, rfl⟩
      have hwx : wfNums x = true := by
        rw [wfNumsL, Bool.and_eq_true] at hwf
        exact hwf.1
      have hpx : pfuel x ≤ f := by
        have h0 : pfuelItems [x] = 1 + pfuel x := rfl
        omega
      have hp := parse_ser x lvl f ('\n' :: (jsonIndent n ++ (']' :: rest))) hwx
        (Or.inr rfl) hpx
      have hskip : skipWs ('\n' :: (jsonIndent n ++ (']' :: rest))) = ']' :: rest := by
        rw [@skipWs_cons_of_ws '\n' (by decide) _, skipWs_indent,
          @skipWs_cons_of_not ']' (by decide) _]
      rw [show serItems lvl [x] = serVal lvl x from rfl]
      exact parseItems_step_last f _ _ rest x hp hskip
  | x, y :: ys, lvl, fuel, n, rest, hwf, hfu => by
      obtain ⟨f, rfl⟩ : ∃ f, fuel = f + 1 := by
        cases fuel with
        | zero => exact absurd hfu (by simp [pfuelItems])
        | succ f => exact ⟨f, rfl⟩
      have hwx : wfNums x = true ∧ wfNumsL (y :: ys) = true := by
        rw [wfNumsL, Bool.and_eq_true] at hwf
        exact hwf
      have hpx : pfuel x ≤ f ∧ pfuelItems (y :: ys) ≤ f := by
        have h0 : pfuelItems (x :: y :: ys) = 1 + max (pfuel x) (pfuelItems (y :: ys)) := rfl
        rw [h0] at hfu
        have hmax : max (pfuel x) (pfuelItems (y :: ys)) ≤ f := by omega
        exact ⟨le_trans (Nat.le_max_left _ _) hmax, le_trans (Nat.le_max_right _ _) hmax⟩
      have hshape : serItems lvl (x :: y :: ys) ++ ('\n' :: (jsonIndent n ++ (']' :: rest)))
          = serVal lvl x ++ (',' :: ('\n' :: (jsonIndent lvl
              ++ (serItems lvl (y :: ys) ++ ('\n' :: (jsonIndent n ++ (']' :: rest))))))) := by
        rw [serItems]
        simp
      have hp := parse_ser x lvl f (',' :: ('\n' :: (jsonIndent lvl
          ++ (serItems lvl (y :: ys) ++ ('\n' :: (jsonIndent n ++ (']' :: rest))))))) hwx.1
        (Or.inl rfl) hpx.1
      rw [hshape, parseItems_step_cons f _ _ _ x hp
        (@skipWs_cons_of_not ',' (by decide) _)]
      rw [show ('\n' :: (jsonIndent lvl
              ++ (serItems lvl (y :: ys) ++ ('\n' :: (jsonIndent n ++ (']' :: rest))))))
          = ('\n' :: jsonIndent lvl)
              ++ (serItems lvl (y :: ys) ++ ('\n' :: (jsonIndent n ++ (']' :: rest))))
          from rfl]
      rw [parseItems_ws_pre f ('\n' :: jsonIndent lvl) _ (ws_nl_indent lvl)]
      rw [parse_ser_items y ys lvl f n rest hwx.2 hpx.2]
      rfl
termination_by x xs => sizeOf x + sizeOf xs

/-- Parsing inverts serialization of one or more object entries followed
by the closing newline, indentation and brace. -/
theorem parse_ser_entries : ∀ (kv : String × PyVal) (kvs : List (String × PyVal))
    (lvl fuel n : Nat) (rest : List Char),
    wfNumsD (kv :: kvs) = true → pfuelEntries (kv :: kvs) ≤ fuel →
    parseEntries fuel (serEntries lvl (kv :: kvs) ++ ('\n' :: (jsonIndent n ++ ('}' :: rest))))
      = some (kv :: kvs, rest)
  | (k, v), [], lvl, fuel, n, rest, hwf, hfu => by
      obtain ⟨f, rfl⟩ : ∃ f, fuel = f + 1 := by
        cases fuel with
        | zero => exact absurd hfu (by simp [pfuelEntries])
        | succ f => exact ⟨f, rfl⟩
      have hwv : wfNums v = true := by
        rw [wfNumsD, Bool.and_eq_true] at hwf
        exact hwf.1
      have hpv : pfuel v ≤ f := by
        have h0 : pfuelEntries [(k, v)] = 1 + pfuel v := rfl
        omega
      have hshape : serEntries lvl [(k, v)] ++ ('\n' :: (jsonIndent n ++ ('}' :: rest)))
          = '"' :: (jsonEscapeL k.toList ++ ('"' :: (':' :: (' ' :: (serVal lvl v
              ++ ('\n' :: (jsonIndent n ++ ('}' :: rest)))))))) := by
        rw [serEntries, jsonEscape]
        simp
      have hval : parseVal f (' ' :: (serVal lvl v ++ ('\n' :: (jsonIndent n ++ ('}' :: rest)))))
          = some (v, '\n' :: (jsonIndent n ++ ('}' :: rest))) := by
        rw [show (' ' :: (serVal lvl v ++ ('\n' :: (jsonIndent n ++ ('}' :: rest)))))
            = ([' '] ++ (serVal lvl v ++ ('\n' :: (jsonIndent n ++ ('}' :: rest)))))
            from rfl,
          parseVal_ws_pre f [' '] _ (by
            intro c hc
            rcases List.mem_singleton.mp hc with rfl
            decide)]
        exact parse_ser v lvl f _ hwv (Or.inr rfl) hpv
      have hskip2 : skipWs ('\n' :: (jsonIndent n ++ ('}' :: rest))) = '}' :: rest := by
        rw [@skipWs_cons_of_ws '\n' (by decide) _, skipWs_indent,
          @skipWs_cons_of_not '}' (by decide) _]
      rw [hshape, parseEntries_step_last f _ _ _ _ _ rest k.toList v
        (@skipWs_cons_of_not '"' (by decide) _) (parseStrBody_escape k.toList _)
        (@skipWs_cons_of_not ':' (by decide) _) hval hskip2, string_mk_toList]
  | (k, v), e :: es, lvl, fuel, n, rest, hwf, hfu => by
      obtain ⟨f, rfl⟩ : ∃ f, fuel = f + 1 := by
        cases fuel with
        | zero => exact absurd hfu (by simp [pfuelEntries])
        | succ f => exact ⟨f, rfl⟩
      have hwx : wfNums v = true ∧ wfNumsD (e :: es) = true := by
        rw [wfNumsD, Bool.and_eq_true] at hwf
        exact hwf
      have hpx : pfuel v ≤ f ∧ pfuelEntries (e :: es) ≤ f := by
        have h0 : pfuelEntries ((k, v) :: e :: es)
            = 1 + max (pfuel v) (pfuelEntries (e :: es)) := rfl
        rw [h0] at hfu
        have hmax : max (pfuel v) (pfuelEntries (e :: es)) ≤ f := by omega
        exact ⟨le_trans (Nat.le_max_left _ _) hmax, le_trans (Nat.le_max_right _ _) hmax⟩
      have hshape : serEntries lvl ((k, v) :: e :: es)
              ++ ('\n' :: (jsonIndent n ++ ('}' :: rest)))
          = '"' :: (jsonEscapeL k.toList ++ ('"' :: (':' :: (' ' :: (serVal lvl v
              ++ (',' :: ('\n' :: (jsonIndent lvl
                  ++ (serEntries lvl (e :: es)
                      ++ ('\n' :: (jsonIndent n ++ ('}' :: rest)))))))))))) := by
        rw [serEntries, jsonEscape]
        simp
      have hval : parseVal f (' ' :: (serVal lvl v ++ (',' :: ('\n' :: (jsonIndent lvl
              ++ (serEntries lvl (e :: es) ++ ('\n' :: (jsonIndent n ++ ('}' :: rest)))))))))
          = some (v, ',' :: ('\n' :: (jsonIndent lvl
              ++ (serEntries lvl (e :: es) ++ ('\n' :: (jsonIndent n ++ ('}' :: rest))))))) := by
        rw [show (' ' :: (serVal lvl v ++ (',' :: ('\n' :: (jsonIndent lvl
              ++ (serEntries lvl (e :: es) ++ ('\n' :: (jsonIndent n ++ ('}' :: rest)))))))))
            = ([' '] ++ (serVal lvl v ++ (',' :: ('\n' :: (jsonIndent lvl
              ++ (serEntries lvl (e :: es) ++ ('\n' :: (jsonIndent n ++ ('}' :: rest)))))))))
            from rfl,
          parseVal_ws_pre f [' '] _ (by
            intro c hc
            rcases List.mem_singleton.mp hc with rfl
            decide)]
        exact parse_ser v lvl f _ hwx.1 (Or.inl rfl) hpx.1
      rw [hshape, parseEntries_step_cons f _ _ _ _ _ _ k.toList v
        (@skipWs_cons_of_not '"' (by decide) _) (parseStrBody_escape k.toList _)
        (@skipWs_cons_of_not ':' (by decide) _) hval
        (@skipWs_cons_of_not ',' (by decide) _)]
      rw [show ('\n' :: (jsonIndent lvl
              ++ (serEntries lvl (e :: es) ++ ('\n' :: (jsonIndent n ++ ('}' :: rest))))))
          = ('\n' :: jsonIndent lvl)
              ++ (serEntries lvl (e :: es) ++ ('\n' :: (jsonIndent n ++ ('}' :: rest))))
          from rfl]
      rw [parseEntries_ws_pre f ('\n' :: jsonIndent lvl) _ (ws_nl_indent lvl)]
      rw [parse_ser_entries e es lvl f n rest hwx.2 hpx.2]
      rw [string_mk_toList]
      rfl
termination_by kv kvs => sizeOf kv + sizeOf kvs

end

mutual

/-- The parser needs no more fuel than the length of the serialization. -/
theorem pfuel_le : ∀ (v : PyVal) (lvl : Nat), wfNums v = true →
    pfuel v ≤ (serVal lvl v).length
  | .pnull, lvl, _ => by simp [pfuel, serVal]
  | .pbool true, lvl, _ => by simp [pfuel, serVal]
  | .pbool false, lvl, _ => by simp [pfuel, serVal]
  | .pnum t, lvl, hwf => by
      obtain ⟨c, cs, hcs, _⟩ := validNumToken_head t hwf
      have h0 : pfuel (.pnum t) = 1 := rfl
      have h1 : serVal lvl (.pnum t) = t.toList := rfl
      rw [h0, h1, hcs]
      simp
  | .pstr s, lvl, _ => by simp [pfuel, serVal]
  | .plist [], lvl, _ => by simp [pfuel, serVal]
  | .plist (x :: xs), lvl, hwf => by
      have h := pfuelItems_le x xs (lvl + 1) hwf
      have h0 : pfuel (.plist (x :: xs)) = 1 + pfuelItems (x :: xs) := rfl
      rw [h0, serVal]
      simp [jsonIndent]
      omega
  | .pdict [], lvl, _ => by simp [pfuel, serVal]
  | .pdict (kv :: kvs), lvl, hwf => by
      have h := pfuelEntries_le kv kvs (lvl + 1) (by
        cases kv
        exact hwf)
      have h0 : pfuel (.pdict (kv :: kvs)) = 1 + pfuelEntries (kv :: kvs) := rfl
      rw [h0, serVal]
      simp [jsonIndent]
      omega
termination_by v => sizeOf v

/-- Fuel bound for serialized array items. -/
theorem pfuelItems_le : ∀ (x : PyVal) (xs : List PyVal) (lvl : Nat),
    wfNumsL (x :: xs) = true → pfuelItems (x :: xs) ≤ (serItems lvl (x :: xs)).length + 1
  | x, [], lvl, hwf => by
      have hwx : wfNums x = true := by
        rw [wfNumsL, Bool.and_eq_true] at hwf
        exact hwf.1
      have h := pfuel_le x lvl hwx
      have h0 : pfuelItems [x] = 1 + pfuel x := rfl
      have h1 : serItems lvl [x] = serVal lvl x := rfl
      rw [h0, h1]
      omega
  | x, y :: ys, lvl, hwf => by
      rw [wfNumsL, Bool.and_eq_true] at hwf
      have h1 := pfuel_le x lvl hwf.1
      have h2 := pfuelItems_le y ys lvl hwf.2
      have h0 : pfuelItems (x :: y :: ys) = 1 + max (pfuel x) (pfuelItems (y :: ys)) := rfl
      rw [h0, serItems]
      simp [jsonIndent]
      omega
termination_by x xs => sizeOf x + sizeOf xs

/-- Fuel bound for serialized object entries. -/
theorem pfuelEntries_le : ∀ (kv : String × PyVal) (kvs : List (String × PyVal)) (lvl : Nat),
    wfNumsD (kv :: kvs) = true →
    pfuelEntries (kv :: kvs) ≤ (serEntries lvl (kv :: kvs)).length + 1
  | (k, v), [], lvl, hwf => by
      have hwv : wfNums v = true := by
        rw [wfNumsD, Bool.and_eq_true] at hwf
        exact hwf.1
      have h := pfuel_le v lvl hwv
      have h0 : pfuelEntries [(k, v)] = 1 + pfuel v := rfl
      rw [h0, serEntries]
      simp
      omega
  | (k, v), e :: es, lvl, hwf => by
      rw [wfNumsD, Bool.and_eq_true] at hwf
      have h1 := pfuel_le v lvl hwf.1
      have h2 := pfuelEntries_le e es lvl hwf.2
      have h0 : pfuelEntries ((k, v) :: e :: es)
          = 1 + max (pfuel v) (pfuelEntries (e :: es)) := rfl
      rw [h0, serEntries]
      simp [jsonIndent]
      omega
termination_by kv kvs => sizeOf kv + sizeOf kvs

end

/-- `json.load` inverts `json.dump` on every value whose numeric tokens
are valid JSON number tokens. -/
theorem pyLoads_pyDumps (v : PyVal) (hwf : wfNums v = true) :
    pyLoads (pyDumps v) = some v := by
  have hfu : pfuel v ≤ (pyDumps v).length + 1 := by
    have h1 := pfuel_le v 0 hwf
    have h2 : (pyDumps v).length = (serVal 0 v).length := rfl
    omega
  have h := parse_ser v 0 ((pyDumps v).length + 1) [] hwf trivial hfu
  rw [pyLoads, show (pyDumps v).toList = serVal 0 v ++ [] from by simp [pyDumps], h]
  rfl

/-- C9: For every dataset value whose numeric fields carry valid JSON
number tokens, writing it with `_save_people_json_atomic` (with a cache
root configured and no injected failure) and then reading the file back
with `_read_people_json` yields exactly the original value: the
numeric-vs-string representation of every field (for example an
empty-string `lat` next to a numeric `lon`) and all non-ASCII text are
preserved verbatim. -/
theorem save_load_roundtrip (root : String) (data : PyVal) (fs : FS)
    (hwf : wfNums data = true) :
    read_people_json (save_people_json_atomic (some root) data .noFail fs)
      = some data := by
  rw [save_people_json_atomic]
  simp [trySave, read_people_json]
  exact pyLoads_pyDumps data hwf

theorem save_load_roundtrip_witness :
    wfNums (.pdict [("persons", .plist [.pdict [("name", .pstr "Zoë"),
        ("lat", .pstr ""), ("lon", .pnum "12.5")]])]) = true ∧
    read_people_json (save_people_json_atomic (some "/app")
        (.pdict [("persons", .plist [.pdict [("name", .pstr "Zoë"),
          ("lat", .pstr ""), ("lon", .pnum "12.5")]])]) .noFail ⟨none, none⟩)
      = some (.pdict [("persons", .plist [.pdict [("name", .pstr "Zoë"),
          ("lat", .pstr ""), ("lon", .pnum "12.5")]])]) :=
  ⟨by decide, save_load_roundtrip "/app"
    (.pdict [("persons", .plist [.pdict [("name", .pstr "Zoë"),
      ("lat", .pstr ""), ("lon", .pnum "12.5")]])]) ⟨none, none⟩ (by decide)⟩

end FeTrace
